import Mathlib

/-!
Verification development for the `explainable_portfolio_dashboard` repository.

The Python sources are shallowly embedded:
* `utils/ticker_mapper.py` — `build_ticker_lookup`, `detect_tickers_in_text`
  (with a faithful model of `difflib.get_close_matches` for the fuzzy layer);
* `utils/data_loader.py` — `load_price_panel` over an abstract directory
  listing (the filesystem and `pandas.read_csv` are abstracted to parsed
  file records);
* `app.py` — `compute_event_windows`, both as a pure function and as a
  heap-passing program (to state frame properties about the dataframe
  objects passed in).

Python floats are idealized as exact rationals, represented as integer
fractions (`PyFloat`, kept unnormalized so that every arithmetic step is a
plain integer computation); the pandas missing-value `NaN` is kept distinct
from Python `None` via the `PyVal` type, since the code stores both into
the `ar_d` cells. Strings are ASCII-faithful: `str.lower`/`str.upper` are
modelled by `Char.toLower`/`Char.toUpper`, which agree with Python on
ASCII. All sorts in the sources (Python `sorted`, pandas lexsort) are
stable sorts with respect to a total preorder, and the output of a stable
sort is uniquely determined, so they are modelled by insertion sort.
-/

namespace Dashboard

/-- An exact rational value of a Python float computation, as an
unnormalized fraction `num / den`. Two values denote the same rational
when `eqv` holds (cross multiplication). -/
structure PyFloat where
  num : ℤ
  den : ℤ
deriving DecidableEq, Repr

/-- Denotational equality of two `PyFloat` fractions. -/
def PyFloat.eqv (a b : PyFloat) : Bool := a.num * b.den == b.num * a.den

/-- Float addition. -/
def PyFloat.add (a b : PyFloat) : PyFloat :=
  PyFloat.mk (a.num * b.den + b.num * a.den) (a.den * b.den)

/-- Float subtraction. -/
def PyFloat.sub (a b : PyFloat) : PyFloat :=
  PyFloat.mk (a.num * b.den - b.num * a.den) (a.den * b.den)

/-- Float division (exact; the zero-divisor case, where Python would
produce `inf`/`nan`, yields a fraction with denominator zero). -/
def PyFloat.div (a b : PyFloat) : PyFloat := PyFloat.mk (a.num * b.den) (a.den * b.num)

/-- The float `0.0` (the start value of Python `sum`). -/
def PyFloat.zero : PyFloat := PyFloat.mk 0 1

/-- The float `1.0`. -/
def PyFloat.one : PyFloat := PyFloat.mk 1 1

/-- An integer-valued float. -/
def PyFloat.ofInt (n : ℤ) : PyFloat := PyFloat.mk n 1

/-- Value stored in an object-dtype pandas cell: Python `None`, the float
`nan`, or an ordinary number. -/
inductive PyVal where
  | none : PyVal
  | nan : PyVal
  | num : PyFloat → PyVal
deriving DecidableEq, Repr

/-- Python `str.lower()` (ASCII-faithful). -/
def pyLower (s : String) : String := String.mk (s.data.map Char.toLower)

/-- Python `str.upper()` (ASCII-faithful). -/
def pyUpper (s : String) : String := String.mk (s.data.map Char.toUpper)

/-- Stable sort by a boolean total preorder. Python `sorted` and the
pandas lexsort are stable sorts, and a stable sort's output is uniquely
determined by the preorder, so insertion sort models them exactly. -/
def sortBy {α : Type} (leB : α → α → Bool) (l : List α) : List α :=
  @List.insertionSort α (fun a b => leB a b = true)
    (fun a b => Bool.decEq (leB a b) true) l

/-- Code-point lexicographic `≤` on character lists (Python string order). -/
def lexLeChars : List Char → List Char → Bool
  | [], _ => true
  | _ :: _, [] => false
  | c :: cs, d :: ds => if c == d then lexLeChars cs ds else decide (c < d)

/-- Python `≤` on strings (code-point lexicographic). -/
def strLeB (a b : String) : Bool := lexLeChars a.data b.data

/-- Python `sorted(...)` on strings. -/
def pySortStr (l : List String) : List String := sortBy strLeB l

/-- Python `s.strip()` (whitespace strip from both ends; ASCII whitespace). -/
def pyIsSpace (c : Char) : Bool :=
  c == ' ' || c == '\t' || c == '\n' || c == '\r' || c == '\x0b' || c == '\x0c'

/-- Python `str.strip()`. -/
def pyStrip (s : String) : String :=
  String.mk (((s.data.dropWhile pyIsSpace).reverse.dropWhile pyIsSpace).reverse)

/-- Python `s.endswith(t)`. -/
def strEndsWith (s t : String) : Bool :=
  decide (t.data.length ≤ s.data.length) &&
    (s.data.drop (s.data.length - t.data.length) == t.data)

/-- Drop the last `n` characters of a string. -/
def strDropRight (s : String) (n : Nat) : String :=
  String.mk (s.data.take (s.data.length - n))

/-- Regex word character `[A-Za-z0-9_]`, as used by `\b` in `re`. -/
def isWordChar (c : Char) : Bool := c.isAlphanum || c == '_'

/-- Whether position `i` of `s` holds a word character (`false` out of range). -/
def wordAt (s : List Char) (i : Nat) : Bool :=
  match s.get? i with
  | some c => isWordChar c
  | Option.none => false

/-- Whether the regex `\b` matches between positions `i - 1` and `i` of `s`:
exactly one side is a word character (string edges count as non-word). -/
def boundaryAt (s : List Char) (i : Nat) : Bool :=
  (if i == 0 then false else wordAt s (i - 1)) != wordAt s i

/-- The literal pattern `pat` occurs in `s` starting at position `i`. -/
def matchesAt (s pat : List Char) (i : Nat) : Bool :=
  (s.drop i).take pat.length == pat

/-- Python `re.search(r"\b" + re.escape(pat) + r"\b", s)` for a literal `pat`:
the pattern occurs somewhere with word boundaries on both sides. -/
def wordBoundarySearch (s pat : List Char) : Bool :=
  (List.range (s.length + 1)).any fun i =>
    matchesAt s pat i && boundaryAt s i && boundaryAt s (i + pat.length)

/-- Python `pat in s` (substring containment). -/
def isSubstr (pat s : List Char) : Bool :=
  (List.range (s.length + 1)).any fun i => matchesAt s pat i

/-- Takes the leading run of ASCII letters of `l`, up to `n` characters
(greedy `[A-Za-z]{1,n}` after a successful anchor). -/
def takeLettersUpTo : Nat → List Char → List Char
  | 0, _ => []
  | _, [] => []
  | n + 1, c :: cs => if c.isAlpha then c :: takeLettersUpTo n cs else []

/-- The scan loop of `re.findall(r"\$([A-Za-z]{1,6})", text)`, with fuel
bounding the number of scanning steps (structural recursion; the fuel is
instantiated to the text length, which always suffices since every step
consumes at least one character). -/
def cashtagGo : Nat → List Char → List (List Char)
  | 0, _ => []
  | _, [] => []
  | fuel + 1, c :: cs =>
    if c == '$' then
      let run := takeLettersUpTo 6 cs
      if run.isEmpty then cashtagGo fuel cs
      else run :: cashtagGo fuel (cs.drop run.length)
    else cashtagGo fuel cs

/-- Python `re.findall(r"\$([A-Za-z]{1,6})", text)`: scans left to right; on
each `$` followed by at least one letter it captures the greedy run of up to
six letters and resumes after it. -/
def cashtagMatches (l : List Char) : List (List Char) := cashtagGo l.length l

/-- Entry of the ticker lookup dict as built by `build_ticker_lookup`:
`{"ticker": ..., "name": ..., "aliases": [...]}`. -/
structure TickerEntry where
  ticker : String
  name : Option String
  aliases : List String
deriving DecidableEq, Repr

/-- A Python dict is modelled as an association list in insertion order
(keys unique when produced by the code; the functions below do not assume
it). -/
abbrev Lookup := List (String × TickerEntry)

/-- Layer 1 of `detect_tickers_in_text`: `$TICKER` cashtag pattern. Matches
are uppercased and kept when present as a key of the lookup. `found` is a
Python set; it is modelled as a list whose membership is the set. -/
def layer1 (text : List Char) (lookup : Lookup) (acc0 : List String) : List String :=
  (cashtagMatches text).foldl
    (fun acc m =>
      let t := pyUpper (String.mk m)
      if lookup.any (fun p => p.1 == t) then acc ++ [t] else acc)
    acc0

/-- Layer 2: exact ticker token with word boundaries, searched in the
lowercased text (the pattern is `re.escape(t.lower())`, a literal). -/
def layer2 (textLower : List Char) (lookup : Lookup) (acc0 : List String) : List String :=
  lookup.foldl
    (fun acc p =>
      if wordBoundarySearch textLower (pyLower p.1).data then acc ++ [p.1] else acc)
    acc0

/-- Layer 3: company name / alias substring match. For each entry, a first
truthy alias occurring in the lowercased text adds the symbol (the source's
`break` only avoids duplicate set-adds); then, if the symbol is not already
found, a truthy display name occurring as a substring adds it. -/
def layer3 (textLower : List Char) (lookup : Lookup) (acc0 : List String) : List String :=
  lookup.foldl
    (fun acc p =>
      let acc :=
        if p.2.aliases.any (fun a => !(a == "") && isSubstr a.data textLower) then
          acc ++ [p.1]
        else acc
      if acc.contains p.1 then acc
      else
        match p.2.name with
        | some n =>
          if !(n == "") && isSubstr (pyLower n).data textLower then acc ++ [p.1] else acc
        | Option.none => acc)
    acc0

/-- Layers 1 to 3 of `detect_tickers_in_text` on the whole text; the fuzzy
fallback (layer 4) fires only when this produced no match. -/
def layers123 (text : String) (lookup : Lookup) : List String :=
  let textLower := (pyLower text).data
  layer3 textLower lookup (layer2 textLower lookup (layer1 text.data lookup []))

/-! Model of `difflib.get_close_matches` (stdlib), as called with `n=3`,
`cutoff=0.85`, `isjunk=None`. The float cutoff is idealized as the exact
rational `17/20`; ratios are computed exactly in `ℚ`. -/

/-- Ascending positions of `c` in `b` (the `b2j` chains of `SequenceMatcher`). -/
def posList (b : List Char) (c : Char) : List Nat :=
  (List.range b.length).filter fun j => b.get? j == some c

/-- Autojunk: for `len(b) >= 200`, characters occurring more than
`len(b) // 100 + 1` times are dropped from `b2j`. -/
def popularChars (b : List Char) : List Char :=
  if 200 ≤ b.length then
    b.dedup.filter fun c => b.length / 100 + 1 < (posList b c).length
  else []

/-- `b2j` lookup of `SequenceMatcher` with autojunk applied. -/
def b2j (b : List Char) (c : Char) : List Nat :=
  if (popularChars b).contains c then [] else posList b c

/-- State of `find_longest_match`: current best block `(besti, bestj, bestsize)`. -/
structure FLMState where
  besti : Nat
  bestj : Nat
  bestsize : Nat
deriving DecidableEq, Repr

/-- Lookup in the `j2len` dict (missing key yields 0). -/
def j2get (m : List (Nat × Nat)) (j : Nat) : Nat :=
  match m.find? (fun p => p.1 == j) with
  | some p => p.2
  | Option.none => 0

/-- The doubled dynamic-programming loop of `find_longest_match`: for each
`i` in `[alo, ahi)` and each `j` of `b2j[a[i]]` within `[blo, bhi)`,
extend the diagonal ending at `(i, j)` and keep the strictly best block. -/
def flmLoop (a b : List Char) (alo ahi blo bhi : Nat) : FLMState :=
  let step := fun (st : FLMState × List (Nat × Nat)) (i : Nat) =>
    let inner := ((match a.get? i with
        | some c => b2j b c
        | Option.none => []).filter fun j => blo ≤ j && j < bhi).foldl
      (fun (p : FLMState × List (Nat × Nat)) (j : Nat) =>
        let kprev := if j == 0 then 0 else j2get st.2 (j - 1)
        let k := kprev + 1
        let best := if p.1.bestsize < k then FLMState.mk (i + 1 - k) (j + 1 - k) k else p.1
        (best, (j, k) :: p.2))
      (st.1, [])
    inner
  ((List.range' alo (ahi - alo)).foldl step (FLMState.mk alo blo 0, [])).1

/-- Left extension loop of `find_longest_match` (no junk, so the condition
is plain character equality). Fuel-bounded; `besti` decreases each step. -/
def extendL (a b : List Char) (alo blo : Nat) : Nat → FLMState → FLMState
  | 0, st => st
  | fuel + 1, st =>
    if alo < st.besti && blo < st.bestj &&
        (a.get? (st.besti - 1)).isSome && (a.get? (st.besti - 1) == b.get? (st.bestj - 1)) then
      extendL a b alo blo fuel (FLMState.mk (st.besti - 1) (st.bestj - 1) (st.bestsize + 1))
    else st

/-- Right extension loop of `find_longest_match`. -/
def extendR (a b : List Char) (ahi bhi : Nat) : Nat → FLMState → FLMState
  | 0, st => st
  | fuel + 1, st =>
    if st.besti + st.bestsize < ahi && st.bestj + st.bestsize < bhi &&
        (a.get? (st.besti + st.bestsize)).isSome &&
        (a.get? (st.besti + st.bestsize) == b.get? (st.bestj + st.bestsize)) then
      extendR a b ahi bhi fuel (FLMState.mk st.besti st.bestj (st.bestsize + 1))
    else st

/-- `SequenceMatcher.find_longest_match` on ranges `a[alo:ahi]`, `b[blo:bhi]`:
DP loop, then extension by matching characters on both ends (the junk
extension loops are no-ops since `isjunk is None` gives an empty junk set). -/
def findLongestMatch (a b : List Char) (alo ahi blo bhi : Nat) : FLMState :=
  let st := flmLoop a b alo ahi blo bhi
  let st := extendL a b alo blo st.besti st
  extendR a b ahi bhi (ahi - (st.besti + st.bestsize)) st

/-- Total size of matching blocks (the `M` of `ratio = 2M/T`): recursive
split around the longest match, as in `get_matching_blocks`. -/
def matchTotal (a b : List Char) : Nat → Nat × Nat × Nat × Nat → Nat
  | 0, _ => 0
  | fuel + 1, (alo, ahi, blo, bhi) =>
    let st := findLongestMatch a b alo ahi blo bhi
    if st.bestsize == 0 then 0
    else
      st.bestsize + matchTotal a b fuel (alo, st.besti, blo, st.bestj) +
        matchTotal a b fuel (st.besti + st.bestsize, ahi, st.bestj + st.bestsize, bhi)

/-- `SequenceMatcher(None, a, b).ratio()`, exactly in `ℚ`. -/
def ratioOf (a b : List Char) : ℚ :=
  2 * (matchTotal a b (a.length + b.length + 1) (0, a.length, 0, b.length) : ℚ) /
    ((a.length : ℚ) + (b.length : ℚ))

/-- Descending comparison on `(ratio, string)` pairs, as `heapq.nlargest`
compares the tuples built by `get_close_matches`. -/
def tupleGe (p q : ℚ × List Char) : Bool :=
  if p.1 == q.1 then lexLeChars q.2 p.2 else decide (q.1 < p.1)

/-- `difflib.get_close_matches(word, possibilities, n=3, cutoff=0.85)`:
keep possibilities with ratio at least the cutoff, take the three largest
by `(ratio, string)`. The `real_quick_ratio`/`quick_ratio` pre-filters are
upper bounds of `ratio` and do not change the filtered set. -/
def getCloseMatches (word : List Char) (possibilities : List (List Char)) : List (List Char) :=
  let scored := possibilities.filterMap fun x =>
    let r := ratioOf x word
    if decide ((17 : ℚ) / 20 ≤ r) then some (r, x) else Option.none
  ((sortBy tupleGe scored).take 3).map (fun p => p.2)

/-- All aliases across all lookup entries, in iteration order (the
`alias_list` of the fuzzy fallback). -/
def aliasList (lookup : Lookup) : List String :=
  lookup.foldl (fun acc p => acc ++ p.2.aliases) []

/-- The `alias_map` dict of the fuzzy fallback: alias to owning symbol,
later entries overwriting earlier ones. -/
def aliasMapGet (lookup : Lookup) (m : String) : Option String :=
  lookup.foldl (fun acc p => if p.2.aliases.contains m then some p.1 else acc) Option.none

/-- Single left-to-right pass splitting out maximal alphanumeric runs,
carrying the (reversed) run in progress. -/
def alnumRunsGo (cur : List Char) : List Char → List (List Char)
  | [] => if cur.isEmpty then [] else [cur.reverse]
  | c :: cs =>
    if c.isAlphanum then alnumRunsGo (c :: cur) cs
    else if cur.isEmpty then alnumRunsGo [] cs else cur.reverse :: alnumRunsGo [] cs

/-- Maximal alphanumeric runs of `l` (matches of `[A-Za-z0-9]+`). -/
def alnumRuns (l : List Char) : List (List Char) := alnumRunsGo [] l

/-- Python `re.findall(r"[A-Za-z0-9]{3,}", text)`: maximal alphanumeric runs
of length at least 3. -/
def pyTokens (textLower : List Char) : List (List Char) :=
  (alnumRuns textLower).filter fun r => 3 ≤ r.length

/-- Layer 4, the fuzzy fallback: for each significant token, the close
matches against the alias vocabulary are mapped back to their owning symbol
and added. (`alias_map.get(m)` always succeeds since `m` comes from
`alias_list`; a hypothetical `None` would be dropped by the final truthiness
filter anyway.) -/
def layer4 (textLower : List Char) (lookup : Lookup) : List String :=
  let al := (aliasList lookup).map String.data
  (pyTokens textLower).foldl
    (fun acc tok =>
      (getCloseMatches tok al).foldl
        (fun acc m =>
          match aliasMapGet lookup (String.mk m) with
          | some t => acc ++ [t]
          | Option.none => acc)
        acc)
    []

/-- Final statement of `detect_tickers_in_text`:
`sorted([t for t in found if t])` — drop falsy entries, de-duplicate (the
set), sort alphabetically. -/
def pyFinalize (found : List String) : List String :=
  pySortStr ((found.filter fun t => !(t == "")).dedup)

/-- `detect_tickers_in_text(text, lookup)` from `utils/ticker_mapper.py`:
empty text or empty lookup short-circuit to `[]`; otherwise layers 1 to 3
run on the whole text, the fuzzy fallback fires only when they found
nothing, and the result is the sorted de-duplicated truthy matches. -/
def detect_tickers_in_text (text : String) (lookup : Lookup) : List String :=
  if text == "" || lookup.isEmpty then []
  else
    let found123 := layers123 text lookup
    let found :=
      if found123.isEmpty then found123 ++ layer4 (pyLower text).data lookup
      else found123
    pyFinalize found

/-! Embedding of `utils/ticker_mapper.py: build_ticker_lookup` and
`utils/data_loader.py: load_price_panel`. The price directory is abstracted
to a listing of parsed CSV files: `pandas.read_csv` is replaced by the
file's parsed column headers and typed records, and the `name`/`company`
probe of `build_ticker_lookup` (first row of the first such column, with
`pd.isna` and read failures giving `None`) by the `nameCell` field. -/

/-- One OHLCV record of a price CSV, as parsed by `pandas` (floats
idealized as exact values, the date as a calendar-day number). -/
structure RawRecord where
  date : ℤ
  openV : PyFloat
  highV : PyFloat
  lowV : PyFloat
  closeV : PyFloat
  volumeV : ℤ
deriving DecidableEq, Repr

/-- A file of the price directory: its name, raw column headers, parsed
records, and the value probed from a `name`/`company` column (`none` when
no such column exists, the cell is NA, or reading failed). -/
structure CSVFile where
  name : String
  columns : List String
  records : List RawRecord
  nameCell : Option String
deriving DecidableEq, Repr

/-- `pathlib.Path.glob("*.csv")`: names ending in `.csv` (pathlib's `*`
matches any characters including a leading dot, so hidden files match). -/
def globCsv (n : String) : Bool := strEndsWith n ".csv"

/-- `pathlib.Path(...).stem` for a name ending in `.csv`. -/
def pathStem (n : String) : String := strDropRight n 4

/-- Python `sorted(list(set(...)))` on strings. -/
def pySortedDedup (l : List String) : List String := pySortStr l.dedup

/-- Builds one lookup entry from a CSV file, as `build_ticker_lookup` does:
ticker from the uppercased stem; name normalized by `str(...).strip()`;
aliases are the lowercased ticker plus, for a truthy name, the lowercased
name and its alphanumeric tokens of length greater than 2. -/
def buildEntry (f : CSVFile) : String × TickerEntry :=
  let ticker := pyUpper (pathStem f.name)
  let nm := f.nameCell.map pyStrip
  let aliasesRaw :=
    match nm with
    | some n =>
      if n == "" then [pyLower ticker]
      else
        [pyLower ticker] ++ [pyLower n] ++
          (((alnumRuns (pyLower n).data).filter fun r => 2 < r.length).map String.mk)
    | Option.none => [pyLower ticker]
  (ticker, TickerEntry.mk ticker nm (pySortedDedup aliasesRaw))

/-- Python dict assignment `d[k] = v`: replace in place if the key exists,
else append. -/
def dictInsert (l : Lookup) (k : String) (v : TickerEntry) : Lookup :=
  if l.any (fun p => p.1 == k) then
    l.map fun p => if p.1 == k then (k, v) else p
  else l ++ [(k, v)]

/-- `build_ticker_lookup(prices_dir)`: scan the `*.csv` files in sorted
order and insert one entry per file, keyed by the uppercased stem. -/
def build_ticker_lookup (dir : List CSVFile) : Lookup :=
  (sortBy (fun a b => strLeB a.name b.name) (dir.filter fun f => globCsv f.name)).foldl
    (fun acc f =>
      let e := buildEntry f
      dictInsert acc e.1 e.2)
    []

/-- Failure modes of `load_price_panel` (the exceptions it raises):
missing directory, no CSV files, or a file lacking required columns — the
latter carrying the offending file's name and its (normalized) columns, as
the raised `ValueError` message does. -/
inductive LoadError where
  | dirNotFound
  | noCSVFiles
  | missingColumns (file : String) (found : List String)
deriving DecidableEq, Repr

/-- A row of the combined price panel (`df_clean` plus `adj_close` and
`ticker`). -/
structure PanelRow where
  date : ℤ
  openV : PyFloat
  highV : PyFloat
  lowV : PyFloat
  closeV : PyFloat
  volumeV : ℤ
  adjClose : PyFloat
  ticker : String
deriving DecidableEq, Repr

/-- The required column set of `load_price_panel`. -/
def requiredCols : List String := ["date", "open", "high", "low", "close", "volume"]

/-- Column headers after `c.lower().strip()`. -/
def normCols (f : CSVFile) : List String := f.columns.map fun c => pyStrip (pyLower c)

/-- Whether all required columns are present after normalization. -/
def hasRequired (f : CSVFile) : Bool := requiredCols.all fun c => (normCols f).contains c

/-- Per-file step of `load_price_panel`: validate the columns, then keep
the required columns, derive `adj_close` from `close`, and tag with the
uppercased stem. -/
def loadFile (f : CSVFile) : Except LoadError (List PanelRow) :=
  if hasRequired f then
    Except.ok (f.records.map fun r =>
      PanelRow.mk r.date r.openV r.highV r.lowV r.closeV r.volumeV r.closeV
        (pyUpper (pathStem f.name)))
  else Except.error (LoadError.missingColumns f.name (normCols f))

/-- The file loop of `load_price_panel`: first missing-column error aborts. -/
def loadFiles : List CSVFile → Except LoadError (List PanelRow)
  | [] => Except.ok []
  | f :: fs =>
    match loadFile f with
    | Except.error e => Except.error e
    | Except.ok rows =>
      match loadFiles fs with
      | Except.error e => Except.error e
      | Except.ok rest => Except.ok (rows ++ rest)

/-- Stable lexicographic order on panel rows by `(ticker, date)`. -/
def panelLe (a b : PanelRow) : Bool :=
  if a.ticker == b.ticker then decide (a.date ≤ b.date) else strLeB a.ticker b.ticker

/-- `load_price_panel()` from `utils/data_loader.py`, over an abstract
directory: `none` models an absent directory. Fails fast on a missing
directory, an empty glob, or a file missing required columns; otherwise
concatenates and sorts by `(ticker, date)`. -/
def load_price_panel (dir : Option (List CSVFile)) : Except LoadError (List PanelRow) :=
  match dir with
  | Option.none => Except.error LoadError.dirNotFound
  | some files =>
    let csvs := sortBy (fun a b => strLeB a.name b.name) (files.filter fun f => globCsv f.name)
    if csvs.isEmpty then Except.error LoadError.noCSVFiles
    else (loadFiles csvs).map fun rows => sortBy panelLe rows

/-! Embedding of `app.py: compute_event_windows`. The price dataframe for
events has columns `ticker, date, close` (dates already calendar dates,
modelled as day numbers, so the `pd.to_datetime(...).dt.date` normalization
is the identity here). The events dataframe rows carry the
`detected_ticker` / `detected_tickers` cells and the `event_date`. -/

/-- A row of the price dataframe passed to `compute_event_windows`. -/
structure PriceRow where
  ticker : String
  date : ℤ
  close : PyFloat
deriving DecidableEq, Repr

/-- A price row after the per-ticker `daily_return` column is added
(`prev_close` is dropped again by the code and not kept here). The first
observation per ticker gets the float `nan`. -/
structure PriceRowR where
  ticker : String
  date : ℤ
  close : PyFloat
  daily_return : PyVal
deriving DecidableEq, Repr

/-- The duck-typed content of a `detected_ticker(s)` cell: missing, a
string, or a list of strings. -/
inductive TickerCell where
  | noneC : TickerCell
  | strC : String → TickerCell
  | listC : List String → TickerCell
deriving DecidableEq, Repr

/-- Python truthiness of a ticker cell. -/
def cellFalsy : TickerCell → Bool
  | TickerCell.noneC => true
  | TickerCell.strC s => s == ""
  | TickerCell.listC l => l.isEmpty

/-- A row of the exploded events dataframe (fields used by
`compute_event_windows`). -/
structure EventRow where
  detected_ticker : TickerCell
  detected_tickers : TickerCell
  event_date : ℤ
deriving DecidableEq, Repr

/-- An output row: the event row with the added `ar_1..ar_N` cells and the
`car_1_3` cell. -/
structure OutRow where
  ev : EventRow
  ars : List PyVal
  car_1_3 : PyVal
deriving DecidableEq, Repr

/-- Lexicographic `(ticker, date)` order used by
`price_df.sort_values(["ticker", "date"])` (a stable lexsort). -/
def priceLe (a b : PriceRow) : Bool :=
  if a.ticker == b.ticker then decide (a.date ≤ b.date) else strLeB a.ticker b.ticker

/-- The sorted price dataframe. -/
def sortPrices (l : List PriceRow) : List PriceRow := sortBy priceLe l

/-- The `groupby("ticker")["close"].shift(1)` / `daily_return` computation
on the sorted rows: each row is annotated with `close/prev_close - 1`
against the previous row of the same ticker, `nan` for the first row of a
ticker group. -/
def addReturns : Option PriceRow → List PriceRow → List PriceRowR
  | _, [] => []
  | prev, r :: rest =>
    let dr :=
      match prev with
      | some p =>
        if p.ticker == r.ticker then PyVal.num ((r.close.div p.close).sub PyFloat.one)
        else PyVal.nan
      | Option.none => PyVal.nan
    PriceRowR.mk r.ticker r.date r.close dr :: addReturns (some r) rest

/-- Extraction of the event's ticker string:
`t = row.get("detected_ticker") or row.get("detected_tickers")`, first
element when a non-empty list, `None` on falsy, then `str(t).upper()`. -/
def pyTickerOf (ev : EventRow) : Option String :=
  let t := if cellFalsy ev.detected_ticker then ev.detected_tickers else ev.detected_ticker
  let t :=
    match t with
    | TickerCell.listC (s :: _) => TickerCell.strC s
    | other => other
  if cellFalsy t then Option.none
  else
    match t with
    | TickerCell.strC s => some (pyUpper s)
    | _ => Option.none

/-- `ticker_groups[t].at[target_date, "daily_return"]` with the
`in price_ts.index` guard folded in: the first row of ticker `t` at date
`d` in the prepared dataframe, if any (`.iloc[0]` on duplicate dates). -/
def lookupReturn (pr : List PriceRowR) (t : String) (d : ℤ) : Option PyVal :=
  (pr.find? fun r => r.ticker == t && r.date == d).map fun r => r.daily_return

/-- Float addition with `nan` propagation (`sum` over the collected
values; the `PyVal.none` cases are unreachable, the numeric list having
been filtered, and are given an absorbing junk value). -/
def pyAdd : PyVal → PyVal → PyVal
  | PyVal.num a, PyVal.num b => PyVal.num (a.add b)
  | PyVal.none, _ => PyVal.none
  | _, PyVal.none => PyVal.none
  | _, _ => PyVal.nan

/-- Python `sum(vals)` over floats (starting from `0`). -/
def pySum (l : List PyVal) : PyVal := l.foldl pyAdd (PyVal.num PyFloat.zero)

/-- The per-event body of the loop in `compute_event_windows`: the
`ar_1..ar_N` cells and the `car_1_3` cell for one row. -/
def computeRow (pr : List PriceRowR) (fd : Nat) (ev : EventRow) : List PyVal × PyVal :=
  match pyTickerOf ev with
  | Option.none => (List.replicate fd PyVal.none, PyVal.none)
  | some t =>
    if !(pr.any fun r => r.ticker == t) then (List.replicate fd PyVal.none, PyVal.none)
    else
      let ars := (List.range fd).map fun (k : Nat) =>
        match lookupReturn pr t (ev.event_date + ((k : ℤ) + 1)) with
        | some v => v
        | Option.none => PyVal.none
      let numeric := ars.filter fun v => !(v == PyVal.none)
      (ars, if numeric.isEmpty then PyVal.none else pySum numeric)

/-- `compute_event_windows(exploded_events_df, price_df, forward_days)`
from `app.py`, as a pure function from the two input tables to the output
table (one output row per event row, in order). -/
def compute_event_windows (events : List EventRow) (prices : List PriceRow)
    (fd : Nat) : List OutRow :=
  let pr := addReturns Option.none (sortPrices prices)
  events.map fun ev =>
    let res := computeRow pr fd ev
    OutRow.mk ev res.1 res.2

/-! Heap-passing form of `compute_event_windows`, used to state what the
call does to the dataframe objects passed in. Dataframes live in a heap of
Python objects addressed by index; `df.copy()` and the dataframes returned
by `sort_values` are fresh allocations, column assignments and `at[...]`
cell writes mutate the addressed object in place. -/

/-- A dataframe object in the heap, in any of the shapes the function
manipulates. -/
inductive DFObj where
  | prices (rows : List PriceRow)
  | pricesR (rows : List PriceRowR)
  | events (rows : List EventRow)
  | outDF (rows : List OutRow)
deriving DecidableEq, Repr

/-- Allocation at the end of the heap, returning the fresh address. -/
def heapAlloc (h : List DFObj) (o : DFObj) : List DFObj × Nat := (h ++ [o], h.length)

/-- In-place write to an existing heap object. -/
def heapWrite (h : List DFObj) (i : Nat) (o : DFObj) : List DFObj := h.set i o

/-- One iteration of the `out.iterrows()` loop: writes this row's
`ar_1..ar_N` and `car_1_3` cells into the `out` object. -/
def eventLoopStep (erows : List EventRow) (pr : List PriceRowR) (fd : Nat)
    (outId : Nat) (h : List DFObj) (i : Nat) : List DFObj :=
  match h.get? outId with
  | some (DFObj.outDF rows) =>
    match erows.get? i with
    | some ev =>
      let res := computeRow pr fd ev
      heapWrite h outId (DFObj.outDF (rows.set i (OutRow.mk ev res.1 res.2)))
    | Option.none => h
  | _ => h

/-- `compute_event_windows` as a heap program: reads the two argument
objects, copies the price dataframe, sorts it into a fresh object, adds the
return columns in place, copies the events dataframe into the output object
with the `ar`/`car` columns initialized to `None`, then fills them row by
row. Returns the final heap and the address of the output object. -/
def compute_event_windows_prog (h : List DFObj) (eventsId pricesId : Nat)
    (fd : Nat) : List DFObj × Option Nat :=
  match h.get? pricesId, h.get? eventsId with
  | some (DFObj.prices prows), some (DFObj.events erows) =>
    -- price_df = price_df.copy()
    let a1 := heapAlloc h (DFObj.prices prows)
    -- price_df["date"] = pd.to_datetime(...).dt.date  (identity on day numbers)
    let h2 := heapWrite a1.1 a1.2 (DFObj.prices prows)
    -- price_df = price_df.sort_values(["ticker", "date"]).reset_index(drop=True)
    let a2 := heapAlloc h2 (DFObj.prices (sortPrices prows))
    -- prev_close / daily_return columns added in place, prev_close dropped
    let pr := addReturns Option.none (sortPrices prows)
    let h3 := heapWrite a2.1 a2.2 (DFObj.pricesR pr)
    -- out = exploded_events_df.copy(); ar_d and car_1_3 columns set to None
    let a3 := heapAlloc h3
      (DFObj.outDF (erows.map fun ev => OutRow.mk ev (List.replicate fd PyVal.none) PyVal.none))
    -- for i, row in out.iterrows(): ... out.at[i, ...] = ...
    let h4 := (List.range erows.length).foldl (eventLoopStep erows pr fd a3.2) a3.1
    (h4, some a3.2)
  | _, _ => (h, Option.none)

/-! Statement-side definitions used to phrase the claims (these follow the
spec's vocabulary and are compared against the embedded code above). -/

/-- Either the list is empty or its first character is not a letter. Used
to state that a cashtag's letter run is maximal. -/
def headNonAlpha (l : List Char) : Bool :=
  match l.head? with
  | some c => !c.isAlpha
  | Option.none => true

/-- No entry of the lookup has a single-space alias or a display name that
lowercases to a single space. -/
def spaceFreeEntries (lookup : Lookup) : Bool :=
  lookup.all fun p =>
    !(p.2.aliases.contains " ") &&
      (match p.2.name with
       | some n => !(pyLower n == " ")
       | Option.none => true)

/-- The raw `(ticker, date, close)` content of an annotated price row. -/
def stripAnn (r : PriceRowR) : PriceRow := PriceRow.mk r.ticker r.date r.close

/-- The `(symbol, date)` key of a price record. -/
def keyOf (r : PriceRow) : String × ℤ := (r.ticker, r.date)

/-- The spec's PricePoint invariant: `(symbol, date)` pairs are unique. -/
def uniqueKeys (P : List PriceRow) : Prop :=
  P.Pairwise fun a b => keyOf a ≠ keyOf b

instance (P : List PriceRow) : Decidable (uniqueKeys P) :=
  inferInstanceAs (Decidable (P.Pairwise fun a b => keyOf a ≠ keyOf b))

/-- The price record of symbol `T` at calendar date `D` (the first one in
the table; under `uniqueKeys` it is the unique one). -/
def priceRecord (P : List PriceRow) (T : String) (D : ℤ) : Option PriceRow :=
  P.find? fun r => r.ticker == T && r.date == D

/-- One step of the maximal-date fold. -/
def maxStep (acc : Option PriceRow) (r : PriceRow) : Option PriceRow :=
  match acc with
  | some p => if p.date < r.date then some r else some p
  | Option.none => some r

/-- The latest record strictly before a date: the fold keeps the record
with the maximal date (first such record on ties). -/
def maxByDate (l : List PriceRow) : Option PriceRow :=
  l.foldl maxStep Option.none

/-- The prior observation of symbol `T` before date `D`: the record of `T`
with the greatest date strictly less than `D`, if any. The daily return of
the record at `(T, D)` is defined exactly when this exists. -/
def priorRecord (P : List PriceRow) (T : String) (D : ℤ) : Option PriceRow :=
  maxByDate (P.filter fun r => r.ticker == T && decide (r.date < D))

/-- The lexicographic `(ticker, date)` order as a relation. -/
def priceLeP (a b : PriceRow) : Prop := priceLe a b = true

/-! Generic helper lemmas about the folds used by the detection layers. -/

theorem foldl_id_of_step_id {α β : Type} (f : α → β → α) (l : List β) (acc : α)
    (h : ∀ a b, b ∈ l → f a b = a) : l.foldl f acc = acc := by
  induction l generalizing acc with
  | nil => rfl
  | cons x xs ih =>
    rw [List.foldl_cons, h acc x (List.mem_cons_self x xs)]
    exact ih _ fun a b hb => h a b (List.mem_cons_of_mem x hb)

theorem foldl_mem_mono {β : Type} (f : List String → β → List String)
    (hf : ∀ acc b x, x ∈ acc → x ∈ f acc b) (l : List β) (acc : List String) (x : String)
    (hx : x ∈ acc) : x ∈ l.foldl f acc := by
  induction l generalizing acc with
  | nil => exact hx
  | cons y ys ih => exact ih _ (hf acc y x hx)

theorem foldl_mem_of_elem {β : Type} (f : List String → β → List String)
    (hf : ∀ acc b x, x ∈ acc → x ∈ f acc b) (l : List β) (b : β) (hb : b ∈ l)
    (x : String) (hstep : ∀ acc, x ∈ f acc b) : ∀ acc, x ∈ l.foldl f acc := by
  induction l with
  | nil => cases hb
  | cons y ys ih =>
    intro acc
    rcases List.mem_cons.mp hb with rfl | hb'
    · exact foldl_mem_mono f hf ys _ x (hstep acc)
    · exact ih hb' _

theorem filter_ne_none_replicate (n : Nat) :
    (List.replicate n PyVal.none).filter (fun v => !(v == PyVal.none)) = [] := by
  induction n with
  | zero => rfl
  | succ k ih => simp [List.replicate_succ, ih]

theorem mem_sortBy {α : Type} (leB : α → α → Bool) (l : List α) (a : α) :
    a ∈ sortBy leB l ↔ a ∈ l :=
  (List.perm_insertionSort _ l).mem_iff

theorem mem_pySortedDedup (l : List String) (x : String) :
    x ∈ pySortedDedup l ↔ x ∈ l := by
  rw [pySortedDedup, pySortStr, mem_sortBy, List.mem_dedup]

theorem mem_dictInsert (l : Lookup) (k : String) (v : TickerEntry)
    (p : String × TickerEntry) (hp : p ∈ dictInsert l k v) : p ∈ l ∨ p = (k, v) := by
  unfold dictInsert at hp
  by_cases hk : l.any (fun q => q.1 == k)
  · rw [if_pos hk] at hp
    obtain ⟨q, hq, hqe⟩ := List.mem_map.mp hp
    by_cases hqk : q.1 == k
    · rw [if_pos hqk] at hqe
      exact Or.inr hqe.symm
    · rw [if_neg hqk] at hqe
      exact Or.inl (hqe ▸ hq)
  · rw [if_neg hk] at hp
    rcases List.mem_append.mp hp with h | h
    · exact Or.inl h
    · exact Or.inr (List.mem_singleton.mp h)

theorem mem_build_is_buildEntry (dir : List CSVFile) (p : String × TickerEntry)
    (hp : p ∈ build_ticker_lookup dir) : ∃ f, p = buildEntry f := by
  unfold build_ticker_lookup at hp
  generalize hacc : ([] : Lookup) = acc at hp
  have hbase : ∀ q ∈ acc, ∃ f, q = buildEntry f := by
    intro q hq
    rw [← hacc] at hq
    cases hq
  clear hacc
  generalize sortBy (fun a b => strLeB a.name b.name) (dir.filter fun f => globCsv f.name) = fs at hp
  induction fs generalizing acc with
  | nil => exact hbase p hp
  | cons g rest ih =>
    rw [List.foldl_cons] at hp
    refine ih _ ?_ hp
    intro q hq
    rcases mem_dictInsert _ _ _ q hq with h | h
    · exact hbase q h
    · exact ⟨g, h⟩

/-! Claim C7 — alias sets built by `build_ticker_lookup`. -/

/-- Membership in the alias set of a single built entry. -/
theorem buildEntry_alias_mem (f : CSVFile) (x : String) :
    x ∈ (buildEntry f).2.aliases ↔
      x = pyLower (buildEntry f).1 ∨
        ∃ n, (buildEntry f).2.name = some n ∧ n ≠ "" ∧
          (x = pyLower n ∨ (x.data ∈ alnumRuns (pyLower n).data ∧ 2 < x.length)) := by
  simp only [buildEntry, mem_pySortedDedup]
  cases hnm : f.nameCell.map pyStrip with
  | none =>
    simp only [hnm, List.mem_singleton]
    constructor
    · exact fun h => Or.inl h
    · rintro (h | ⟨n, hn, _⟩)
      · exact h
      · cases hn
  | some n =>
    by_cases hn0 : n == ""
    · simp only [hnm, if_pos hn0, List.mem_singleton]
      constructor
      · exact fun h => Or.inl h
      · rintro (h | ⟨n', hn', hne, _⟩)
        · exact h
        · rw [Option.some.injEq] at hn'
          exact absurd (hn' ▸ (eq_of_beq hn0)) hne
    · simp only [hnm, if_neg hn0, List.mem_append, List.mem_singleton, List.mem_map,
        List.mem_filter]
      constructor
      · rintro ((h | h) | ⟨r, ⟨hr, hrl⟩, rfl⟩)
        · exact Or.inl h
        · exact Or.inr ⟨n, rfl, fun hc => hn0 (by simp [hc]), Or.inl h⟩
        · exact Or.inr ⟨n, rfl, fun hc => hn0 (by simp [hc]),
            Or.inr ⟨hr, by simpa using hrl⟩⟩
      · rintro (h | ⟨n', hn', hne, (h | ⟨hr, hrl⟩)⟩)
        · exact Or.inl (Or.inl h)
        · rw [Option.some.injEq] at hn'
          exact Or.inl (Or.inr (hn' ▸ h))
        · rw [Option.some.injEq] at hn'
          subst hn'
          refine Or.inr ⟨x.data, ⟨hr, by simpa using hrl⟩, ?_⟩
          cases x
          rfl

/-- C7: every entry built by `build_ticker_lookup` has an alias set that
contains exactly the lowercased symbol together with, when a truthy display
name is present, the lowercased full name and those alphanumeric tokens of
the lowercased name whose length exceeds 2 (tokens of length at most 2 are
excluded, apart from ones that coincide with the symbol or name). -/
theorem build_ticker_lookup_alias_sets (dir : List CSVFile) (sym : String)
    (e : TickerEntry) (x : String) (hmem : (sym, e) ∈ build_ticker_lookup dir) :
    x ∈ e.aliases ↔
      x = pyLower sym ∨
        ∃ n, e.name = some n ∧ n ≠ "" ∧
          (x = pyLower n ∨ (x.data ∈ alnumRuns (pyLower n).data ∧ 2 < x.length)) := by
  obtain ⟨f, hf⟩ := mem_build_is_buildEntry dir (sym, e) hmem
  have h1 : sym = (buildEntry f).1 := congrArg Prod.fst hf
  have h2 : e = (buildEntry f).2 := congrArg Prod.snd hf
  rw [h1, h2]
  exact buildEntry_alias_mem f x

/-- C7 witness: a directory whose single CSV has name column `Apple Inc`
yields the entry with aliases `aapl`, `apple`, `apple inc`, `inc` (the
length-3 token `inc` included). -/
theorem build_ticker_lookup_alias_sets_witness :
    ("aapl" ∈ (TickerEntry.mk "AAPL" (some "Apple Inc")
        ["aapl", "apple", "apple inc", "inc"]).aliases) ∧
    ("apple" ∈ (TickerEntry.mk "AAPL" (some "Apple Inc")
        ["aapl", "apple", "apple inc", "inc"]).aliases) ∧
    ("apple inc" ∈ (TickerEntry.mk "AAPL" (some "Apple Inc")
        ["aapl", "apple", "apple inc", "inc"]).aliases) ∧
    ("inc" ∈ (TickerEntry.mk "AAPL" (some "Apple Inc")
        ["aapl", "apple", "apple inc", "inc"]).aliases) := by
  have hm : ("AAPL", TickerEntry.mk "AAPL" (some "Apple Inc")
      ["aapl", "apple", "apple inc", "inc"]) ∈
        build_ticker_lookup [CSVFile.mk "AAPL.csv" ["date", "name"] [] (some "Apple Inc")] := by
    decide
  refine ⟨?_, ?_, ?_, ?_⟩
  · exact (build_ticker_lookup_alias_sets _ _ _ "aapl" hm).mpr (Or.inl (by decide))
  · exact (build_ticker_lookup_alias_sets _ _ _ "apple" hm).mpr
      (Or.inr ⟨"Apple Inc", rfl, by decide, Or.inr ⟨by decide, by decide⟩⟩)
  · exact (build_ticker_lookup_alias_sets _ _ _ "apple inc" hm).mpr
      (Or.inr ⟨"Apple Inc", rfl, by decide, Or.inl (by decide)⟩)
  · exact (build_ticker_lookup_alias_sets _ _ _ "inc" hm).mpr
      (Or.inr ⟨"Apple Inc", rfl, by decide, Or.inr ⟨by decide, by decide⟩⟩)

/-! Claim C6 — `compute_event_windows` returns exactly one output row per
input event, in input order, dropping no event. -/

/-- C6: for every input event sequence and price table, the output of
`compute_event_windows` has the same length as the input event sequence and
its rows are the input events in order (each with its added cells), so no
event is dropped regardless of price-data availability. -/
theorem compute_event_windows_one_row_per_event (events : List EventRow)
    (prices : List PriceRow) (fd : Nat) :
    (compute_event_windows events prices fd).length = events.length ∧
    (compute_event_windows events prices fd).map OutRow.ev = events := by
  constructor
  · simp [compute_event_windows]
  · simp only [compute_event_windows, List.map_map]
    exact List.map_id events

/-! Claim C2 — `cumulative_return` is the float sum of the non-`None`
`ar_d` cells, and `None` (not 0) when every `ar_d` is `None`. -/

/-- C2: for every row output by `compute_event_windows`, the `car_1_3` cell
equals the Python `sum` of the non-`None` `ar_d` cells (float sum, so a
`nan` cell propagates), and is `None` when all `ar_d` cells are `None`;
and in the concrete 3-day window where only days 1 and 2 have priced
returns 0.01 and -0.02, the cells are `ar_1 = 0.01`, `ar_2 = -0.02`,
`ar_3 = None`, `car_1_3 = -0.01`. -/
theorem car_is_sum_of_non_none (events : List EventRow) (prices : List PriceRow) (fd : Nat) :
    (∀ row ∈ compute_event_windows events prices fd,
      row.car_1_3 =
        if (row.ars.filter fun v => !(v == PyVal.none)).isEmpty then PyVal.none
        else pySum (row.ars.filter fun v => !(v == PyVal.none))) ∧
    (compute_event_windows [EventRow.mk (TickerCell.strC "A") TickerCell.noneC 0]
        [PriceRow.mk "A" 0 (PyFloat.mk 100 1), PriceRow.mk "A" 1 (PyFloat.mk 101 1),
          PriceRow.mk "A" 2 (PyFloat.mk 9898 100)] 3 =
      [OutRow.mk (EventRow.mk (TickerCell.strC "A") TickerCell.noneC 0)
        [PyVal.num (PyFloat.mk 1 100), PyVal.num (PyFloat.mk (-202) 10100), PyVal.none]
        (PyVal.num (PyFloat.mk (-10100) 1010000))] ∧
      (PyFloat.mk 1 100).eqv (PyFloat.mk 1 100) = true ∧
      (PyFloat.mk (-202) 10100).eqv (PyFloat.mk (-1) 50) = true ∧
      (PyFloat.mk (-10100) 1010000).eqv (PyFloat.mk (-1) 100) = true) := by
  constructor
  · intro row hrow
    simp only [compute_event_windows, List.mem_map] at hrow
    obtain ⟨ev, _, rfl⟩ := hrow
    simp only [computeRow]
    cases hT : pyTickerOf ev with
    | none => simp [filter_ne_none_replicate]
    | some t =>
      by_cases hA : (addReturns Option.none (sortPrices prices)).any (fun r => r.ticker == t)
      · simp only [hA, Bool.not_true, Bool.false_eq_true, if_false]
      · simp [hA, filter_ne_none_replicate]
  · decide

/-- C2 witness: the general cumulative-return equation evaluated on the
concrete three-day scenario. -/
theorem car_is_sum_of_non_none_witness :
    (OutRow.mk (EventRow.mk (TickerCell.strC "A") TickerCell.noneC 0)
        [PyVal.num (PyFloat.mk 1 100), PyVal.num (PyFloat.mk (-202) 10100), PyVal.none]
        (PyVal.num (PyFloat.mk (-10100) 1010000))).car_1_3 =
      if ((OutRow.mk (EventRow.mk (TickerCell.strC "A") TickerCell.noneC 0)
            [PyVal.num (PyFloat.mk 1 100), PyVal.num (PyFloat.mk (-202) 10100), PyVal.none]
            (PyVal.num (PyFloat.mk (-10100) 1010000))).ars.filter
          fun v => !(v == PyVal.none)).isEmpty then
        PyVal.none
      else
        pySum ((OutRow.mk (EventRow.mk (TickerCell.strC "A") TickerCell.noneC 0)
            [PyVal.num (PyFloat.mk 1 100), PyVal.num (PyFloat.mk (-202) 10100), PyVal.none]
            (PyVal.num (PyFloat.mk (-10100) 1010000))).ars.filter
          fun v => !(v == PyVal.none)) := by
  have h := car_is_sum_of_non_none
    [EventRow.mk (TickerCell.strC "A") TickerCell.noneC 0]
    [PriceRow.mk "A" 0 (PyFloat.mk 100 1), PriceRow.mk "A" 1 (PyFloat.mk 101 1),
      PriceRow.mk "A" 2 (PyFloat.mk 9898 100)] 3
  refine h.1 _ ?_
  rw [h.2.1]
  exact List.mem_singleton.mpr rfl

/-! Claim C9 — `load_price_panel` fails fast with descriptive errors. -/

theorem loadFiles_first_error (l : List CSVFile) (f : CSVFile)
    (h : l.find? (fun g => !hasRequired g) = some f) :
    loadFiles l = Except.error (LoadError.missingColumns f.name (normCols f)) := by
  induction l with
  | nil => cases h
  | cons g rest ih =>
    by_cases hg : hasRequired g
    · rw [List.find?_cons_of_neg rest (by simp [hg])] at h
      simp [loadFiles, loadFile, hg, ih h]
    · rw [List.find?_cons_of_pos rest (by simp [hg])] at h
      cases h
      simp [loadFiles, loadFile, hg]

/-- C9: `load_price_panel` raises when the price directory is absent;
raises when the directory holds no CSV files; and when some CSV lacks a
required column (date, open, high, low, close, volume, case-insensitive)
it raises an error carrying the offending file's name and the columns
actually found (the first such file in scan order). -/
theorem load_price_panel_fails_fast :
    load_price_panel Option.none = Except.error LoadError.dirNotFound ∧
    (∀ files : List CSVFile, files.filter (fun f => globCsv f.name) = [] →
      load_price_panel (some files) = Except.error LoadError.noCSVFiles) ∧
    (∀ (files : List CSVFile) (f : CSVFile),
      (sortBy (fun a b => strLeB a.name b.name)
          (files.filter (fun f => globCsv f.name))).find? (fun g => !hasRequired g) = some f →
      load_price_panel (some files) =
        Except.error (LoadError.missingColumns f.name (normCols f))) := by
  refine ⟨rfl, ?_, ?_⟩
  · intro files hfil
    simp [load_price_panel, hfil, sortBy, List.insertionSort]
  · intro files f hfind
    have hne : (sortBy (fun a b => strLeB a.name b.name)
        (files.filter (fun f => globCsv f.name))).isEmpty = false := by
      cases hcs : sortBy (fun a b => strLeB a.name b.name)
          (files.filter (fun f => globCsv f.name)) with
      | nil => rw [hcs] at hfind; cases hfind
      | cons a l => rfl
    simp only [load_price_panel, hne, Bool.false_eq_true, if_false,
      loadFiles_first_error _ f hfind, Except.map]

/-- C9 witness: the three failure modes on concrete directories — absent
directory, a directory with no CSV files, and a CSV missing the required
columns (error names `BAD.csv` and lists its found columns). -/
theorem load_price_panel_fails_fast_witness :
    load_price_panel Option.none = Except.error LoadError.dirNotFound ∧
    load_price_panel (some [CSVFile.mk "x.txt" ["date"] [] Option.none]) =
      Except.error LoadError.noCSVFiles ∧
    load_price_panel (some [CSVFile.mk "BAD.csv" ["Date", "Open"] [] Option.none]) =
      Except.error (LoadError.missingColumns "BAD.csv" ["date", "open"]) := by
  refine ⟨load_price_panel_fails_fast.1, ?_, ?_⟩
  · exact load_price_panel_fails_fast.2.1 [CSVFile.mk "x.txt" ["date"] [] Option.none]
      (by decide)
  · have h := load_price_panel_fails_fast.2.2
      [CSVFile.mk "BAD.csv" ["Date", "Open"] [] Option.none]
      (CSVFile.mk "BAD.csv" ["Date", "Open"] [] Option.none) (by decide)
    rw [h]
    rfl

/-! Order lemmas for the code-point lexicographic comparison, and
sortedness of `sortBy`. -/

theorem lexLeChars_total : ∀ a b : List Char, lexLeChars a b = true ∨ lexLeChars b a = true := by
  intro a
  induction a with
  | nil => intro b; exact Or.inl rfl
  | cons c cs ih =>
    intro b
    cases b with
    | nil => exact Or.inr rfl
    | cons d ds =>
      by_cases hcd : c = d
      · subst hcd
        simp only [lexLeChars, beq_self_eq_true, if_true]
        exact ih ds
      · rcases lt_trichotomy c d with h | h | h
        · exact Or.inl (by simp [lexLeChars, hcd, h])
        · exact absurd h hcd
        · refine Or.inr ?_
          have hdc : ¬d = c := fun hh => hcd hh.symm
          simp [lexLeChars, hdc, h]

theorem lexLeChars_trans : ∀ a b c : List Char,
    lexLeChars a b = true → lexLeChars b c = true → lexLeChars a c = true := by
  intro a
  induction a with
  | nil => intro b c _ _; rfl
  | cons x xs ih =>
    intro b c hab hbc
    cases b with
    | nil => simp [lexLeChars] at hab
    | cons y ys =>
      cases c with
      | nil => simp [lexLeChars] at hbc
      | cons z zs =>
        by_cases hxy : x = y
        · subst hxy
          simp only [lexLeChars, beq_self_eq_true, if_true] at hab
          by_cases hyz : x = z
          · subst hyz
            simp only [lexLeChars, beq_self_eq_true, if_true] at hbc ⊢
            exact ih ys zs hab hbc
          · simp only [lexLeChars, beq_eq_false_iff_ne, ne_eq] at hbc ⊢
            rw [if_neg (by simpa using hyz)] at hbc
            rw [if_neg (by simpa using hyz)]
            exact hbc
        · simp only [lexLeChars] at hab
          rw [if_neg (by simpa using hxy)] at hab
          have hxylt : x < y := of_decide_eq_true hab
          by_cases hyz : y = z
          · subst hyz
            simp only [lexLeChars]
            rw [if_neg (by simpa using hxy)]
            exact decide_eq_true hxylt
          · simp only [lexLeChars] at hbc
            rw [if_neg (by simpa using hyz)] at hbc
            have hyzlt : y < z := of_decide_eq_true hbc
            have hxz : x < z := lt_trans hxylt hyzlt
            have hxzne : ¬x = z := ne_of_lt hxz
            simp only [lexLeChars]
            rw [if_neg (by simpa using hxzne)]
            exact decide_eq_true hxz

theorem sortBy_sorted {α : Type} (leB : α → α → Bool)
    (htr : ∀ a b c, leB a b = true → leB b c = true → leB a c = true)
    (hto : ∀ a b, leB a b = true ∨ leB b a = true) (l : List α) :
    (sortBy leB l).Pairwise fun a b => leB a b = true := by
  haveI : IsTotal α fun a b => leB a b = true := ⟨hto⟩
  haveI : IsTrans α fun a b => leB a b = true := ⟨htr⟩
  exact List.sorted_insertionSort _ l

theorem strLeB_total (a b : String) : strLeB a b = true ∨ strLeB b a = true :=
  lexLeChars_total a.data b.data

theorem strLeB_trans (a b c : String) :
    strLeB a b = true → strLeB b c = true → strLeB a c = true :=
  lexLeChars_trans a.data b.data c.data

/-! Membership lemmas for the detection layers and the final statement. -/

theorem mem_pyFinalize (l : List String) (t : String) :
    t ∈ pyFinalize l ↔ t ∈ l ∧ t ≠ "" := by
  rw [pyFinalize, pySortStr, mem_sortBy, List.mem_dedup, List.mem_filter]
  simp

theorem layer1_mono (text : List Char) (lookup : Lookup) (acc : List String)
    (x : String) (hx : x ∈ acc) : x ∈ layer1 text lookup acc := by
  refine foldl_mem_mono _ ?_ _ _ _ hx
  intro a m y hy
  dsimp only
  split
  · exact List.mem_append_left _ hy
  · exact hy

theorem layer2_mono (textLower : List Char) (lookup : Lookup) (acc : List String)
    (x : String) (hx : x ∈ acc) : x ∈ layer2 textLower lookup acc := by
  refine foldl_mem_mono _ ?_ _ _ _ hx
  intro a p y hy
  dsimp only
  split
  · exact List.mem_append_left _ hy
  · exact hy

theorem layer3_mono (textLower : List Char) (lookup : Lookup) (acc : List String)
    (x : String) (hx : x ∈ acc) : x ∈ layer3 textLower lookup acc := by
  refine foldl_mem_mono _ ?_ _ _ _ hx
  intro a p y hy
  dsimp only
  split
  · split
    · exact List.mem_append_left _ hy
    · split
      · split
        · exact List.mem_append_left _ (List.mem_append_left _ hy)
        · exact List.mem_append_left _ hy
      · exact List.mem_append_left _ hy
  · split
    · exact hy
    · split
      · split
        · exact List.mem_append_left _ hy
        · exact hy
      · exact hy

theorem mem_layer1_of (text : List Char) (lookup : Lookup) (m : List Char)
    (hm : m ∈ cashtagMatches text)
    (hkey : lookup.any (fun p => p.1 == pyUpper (String.mk m)) = true) (acc : List String) :
    pyUpper (String.mk m) ∈ layer1 text lookup acc := by
  refine foldl_mem_of_elem _ ?_ _ m hm _ ?_ _
  · intro a b y hy
    dsimp only
    split
    · exact List.mem_append_left _ hy
    · exact hy
  · intro a
    dsimp only
    rw [if_pos hkey]
    exact List.mem_append_right _ (List.mem_singleton.mpr rfl)

theorem mem_layer2_of (textLower : List Char) (lookup : Lookup) (S : String)
    (e : TickerEntry) (hmem : (S, e) ∈ lookup)
    (hsearch : wordBoundarySearch textLower (pyLower S).data = true) (acc : List String) :
    S ∈ layer2 textLower lookup acc := by
  refine foldl_mem_of_elem _ ?_ _ (S, e) hmem _ ?_ _
  · intro a p y hy
    dsimp only
    split
    · exact List.mem_append_left _ hy
    · exact hy
  · intro a
    dsimp only
    rw [if_pos hsearch]
    exact List.mem_append_right _ (List.mem_singleton.mpr rfl)

/-! Behaviour of the layers on empty text and empty lookup. -/

theorem string_data_eq_nil (s : String) : s.data = [] ↔ s = "" := by
  cases s
  simp [String.ext_iff]

theorem range_one_eq : List.range 1 = [0] := rfl

theorem wbs_nil (pat : List Char) : wordBoundarySearch [] pat = false := by
  simp [wordBoundarySearch, boundaryAt, wordAt, range_one_eq]

theorem substr_nil (p : List Char) : isSubstr p [] = true ↔ p = [] := by
  have h : isSubstr p [] = (([] : List Char) == p) := by
    unfold isSubstr matchesAt
    rw [show List.range (([] : List Char).length + 1) = [0] from rfl]
    rw [List.any_cons, List.any_nil, Bool.or_false]
    rw [show (([] : List Char).drop 0) = ([] : List Char) from rfl, List.take_nil]
  rw [h, beq_iff_eq]
  exact ⟨fun hh => hh.symm, fun hh => hh.symm⟩

theorem layer2_id_of_text_empty (lookup : Lookup) (acc : List String) :
    layer2 [] lookup acc = acc := by
  refine foldl_id_of_step_id _ _ _ ?_
  intro a p _
  dsimp only
  rw [wbs_nil, if_neg (by simp)]

theorem layer3_id_of_text_empty (lookup : Lookup) (acc : List String) :
    layer3 [] lookup acc = acc := by
  refine foldl_id_of_step_id _ _ _ ?_
  intro a p _
  dsimp only
  have hA : (p.2.aliases.any fun al => !(al == "") && isSubstr al.data []) = false := by
    rw [List.any_eq_false]
    intro al _
    by_cases h0 : al = ""
    · simp [h0]
    · simp only [Bool.and_eq_true, Bool.not_eq_true', beq_eq_false_iff_ne, ne_eq]
      rintro ⟨-, hsub⟩
      exact h0 ((string_data_eq_nil al).mp ((substr_nil al.data).mp hsub))
  rw [hA]
  simp only [Bool.false_eq_true, if_false]
  split
  · rfl
  · split
    · rename_i n _
      by_cases h0 : n = ""
      · simp [h0]
      · rw [if_neg ?_]
        simp only [Bool.and_eq_true, Bool.not_eq_true', beq_eq_false_iff_ne, ne_eq]
        rintro ⟨-, hsub⟩
        have hpl : (pyLower n).data = [] := (substr_nil (pyLower n).data).mp hsub
        have hlen : n.data.length = 0 := by
          simpa [pyLower] using congrArg List.length hpl
        exact h0 ((string_data_eq_nil n).mp (List.length_eq_zero.mp hlen))
    · rfl

theorem layers123_nil_of_text_empty (lookup : Lookup) : layers123 "" lookup = [] := by
  simp only [layers123]
  have h0 : (pyLower "").data = [] := rfl
  rw [h0]
  have h1 : layer1 ("" : String).data lookup [] = [] := by
    refine foldl_id_of_step_id _ _ _ ?_
    intro a m hm
    have : cashtagMatches ("" : String).data = [] := rfl
    rw [this] at hm
    cases hm
  rw [h1, layer2_id_of_text_empty, layer3_id_of_text_empty]

theorem layers123_nil_of_lookup_nil (text : String) : layers123 text [] = [] := by
  simp only [layers123]
  have h1 : layer1 text.data [] [] = [] := by
    refine foldl_id_of_step_id _ _ _ ?_
    intro a m _
    dsimp only
    rw [List.any_nil, if_neg (by simp)]
  rw [h1]
  rfl

theorem detect_eq_finalize_of_ne_nil (text : String) (lookup : Lookup)
    (h : layers123 text lookup ≠ []) :
    detect_tickers_in_text text lookup = pyFinalize (layers123 text lookup) := by
  have htext : (text == "") = false := by
    rcases Bool.eq_false_or_eq_true (text == "") with hb | hb
    · exfalso
      apply h
      rw [eq_of_beq hb]
      exact layers123_nil_of_text_empty lookup
    · exact hb
  have hlk : lookup.isEmpty = false := by
    cases lookup with
    | nil => exact absurd (layers123_nil_of_lookup_nil text) h
    | cons a l => rfl
  have hne : (layers123 text lookup).isEmpty = false := by
    cases hll : layers123 text lookup with
    | nil => exact absurd hll h
    | cons a l => rfl
  simp only [detect_tickers_in_text, htext, hlk, Bool.or_self, Bool.false_eq_true, if_false,
    hne]

/-! Claim C3 — the fuzzy fallback fires only when layers 1 to 3 found
nothing. -/

/-- C3: whenever the cashtag, exact-token and alias layers found at least
one match on the whole text, the result of `detect_tickers_in_text` is
exactly those layer-1-to-3 matches (sorted, de-duplicated, truthy), with no
fuzzy additions: the fuzzy fallback does not fire. -/
theorem fuzzy_fallback_gated (text : String) (lookup : Lookup)
    (h : layers123 text lookup ≠ []) :
    detect_tickers_in_text text lookup = pyFinalize (layers123 text lookup) ∧
    ∀ t, t ∈ detect_tickers_in_text text lookup ↔ t ∈ layers123 text lookup ∧ t ≠ "" := by
  refine ⟨detect_eq_finalize_of_ne_nil text lookup h, ?_⟩
  intro t
  rw [detect_eq_finalize_of_ne_nil text lookup h]
  exact mem_pyFinalize _ t

/-- C3 witness: a text holding both the exact ticker token `aapl` and the
near-miss token `microsfot` (close to the alias `microsoft`) yields exactly
the exact match; the evaluated result equals the finalized layer-1-to-3
matches and is `["AAPL"]` alone. -/
theorem fuzzy_fallback_gated_witness :
    detect_tickers_in_text "aapl climbs while microsfot dips"
        [("AAPL", TickerEntry.mk "AAPL" (some "Apple Inc") ["aapl", "apple", "apple inc"]),
         ("MSFT", TickerEntry.mk "MSFT" (some "Microsoft Corp")
           ["corp", "microsoft", "msft"])] =
      pyFinalize (layers123 "aapl climbs while microsfot dips"
        [("AAPL", TickerEntry.mk "AAPL" (some "Apple Inc") ["aapl", "apple", "apple inc"]),
         ("MSFT", TickerEntry.mk "MSFT" (some "Microsoft Corp")
           ["corp", "microsoft", "msft"])]) ∧
    detect_tickers_in_text "aapl climbs while microsfot dips"
        [("AAPL", TickerEntry.mk "AAPL" (some "Apple Inc") ["aapl", "apple", "apple inc"]),
         ("MSFT", TickerEntry.mk "MSFT" (some "Microsoft Corp")
           ["corp", "microsoft", "msft"])] = ["AAPL"] := by
  constructor
  · exact (fuzzy_fallback_gated _ _ (by decide)).1
  · decide

/-! Claim C4 — cashtags of lookup symbols are always detected. -/

theorem takeLetters_prefix : ∀ (n : Nat) (l : List Char), ∃ r, l = takeLettersUpTo n l ++ r := by
  intro n
  induction n with
  | zero => intro l; exact ⟨l, by cases l <;> rfl⟩
  | succ m ih =>
    intro l
    cases l with
    | nil => exact ⟨[], rfl⟩
    | cons c cs =>
      by_cases hc : c.isAlpha
      · obtain ⟨r, hr⟩ := ih cs
        refine ⟨r, ?_⟩
        simp only [takeLettersUpTo, hc, if_true, List.cons_append]
        exact congrArg (c :: ·) hr
      · exact ⟨c :: cs, by simp [takeLettersUpTo, hc]⟩

theorem takeLetters_alpha : ∀ (n : Nat) (l : List Char),
    (takeLettersUpTo n l).all Char.isAlpha = true := by
  intro n
  induction n with
  | zero => intro l; cases l <;> rfl
  | succ m ih =>
    intro l
    cases l with
    | nil => rfl
    | cons c cs =>
      by_cases hc : c.isAlpha
      · simp [takeLettersUpTo, hc, ih cs]
      · simp [takeLettersUpTo, hc]

theorem takeLetters_exact : ∀ (n : Nat) (X post : List Char),
    X.all Char.isAlpha = true → X.length ≤ n → headNonAlpha post = true →
    takeLettersUpTo n (X ++ post) = X := by
  intro n X
  induction X generalizing n with
  | nil =>
    intro post _ _ hpost
    cases n with
    | zero => cases post <;> rfl
    | succ m =>
      cases post with
      | nil => rfl
      | cons c cs =>
        have hc : c.isAlpha = false := by
          simpa [headNonAlpha] using hpost
        simp [takeLettersUpTo, hc]
  | cons c cs ih =>
    intro post halpha hlen hpost
    cases n with
    | zero => simp at hlen
    | succ m =>
      have hc : c.isAlpha = true := by
        simp only [List.all_cons, Bool.and_eq_true] at halpha
        exact halpha.1
      have hcs : cs.all Char.isAlpha = true := by
        simp only [List.all_cons, Bool.and_eq_true] at halpha
        exact halpha.2
      have hlen' : cs.length ≤ m := by
        simp only [List.length_cons] at hlen
        omega
      simp only [List.cons_append, takeLettersUpTo, hc, if_true]
      exact congrArg (c :: ·) (ih m post hcs hlen' hpost)

theorem mem_cashtagGo : ∀ (fuel : Nat) (pre X post : List Char),
    (pre ++ '$' :: (X ++ post)).length ≤ fuel →
    X.all Char.isAlpha = true → 1 ≤ X.length → X.length ≤ 6 → headNonAlpha post = true →
    X ∈ cashtagGo fuel (pre ++ '$' :: (X ++ post)) := by
  intro fuel
  induction fuel with
  | zero =>
    intro pre X post hlen _ _ _ _
    exfalso
    simp [List.length_append] at hlen
  | succ fuel ih =>
    intro pre X post hlen halpha h1 h6 hpost
    cases pre with
    | nil =>
      have hrun : takeLettersUpTo 6 (X ++ post) = X := takeLetters_exact 6 X post halpha h6 hpost
      have hXne : X.isEmpty = false := by
        cases X with
        | nil => simp at h1
        | cons a l => rfl
      simp only [List.nil_append, cashtagGo, beq_self_eq_true, if_true, hrun, hXne,
        Bool.false_eq_true, if_false]
      exact List.mem_cons_self _ _
    | cons c pre' =>
      have hlen' : (pre' ++ '$' :: (X ++ post)).length ≤ fuel := by
        simp only [List.cons_append, List.length_cons] at hlen
        omega
      by_cases hc : c == '$'
      · simp only [List.cons_append, cashtagGo, hc, if_true, List.append_eq]
        by_cases hre : (takeLettersUpTo 6 (pre' ++ '$' :: (X ++ post))).isEmpty
        · rw [if_pos hre]
          exact ih pre' X post hlen' halpha h1 h6 hpost
        · rw [if_neg hre]
          obtain ⟨r, hr⟩ := takeLetters_prefix 6 (pre' ++ '$' :: (X ++ post))
          have hall := takeLetters_alpha 6 (pre' ++ '$' :: (X ++ post))
          have hrl : (takeLettersUpTo 6 (pre' ++ '$' :: (X ++ post))).length ≤ pre'.length := by
            by_contra hgt
            push_neg at hgt
            have hdollar1 : (pre' ++ '$' :: (X ++ post)).get? pre'.length = some '$' := by
              rw [List.get?_eq_getElem?, List.getElem?_append_right (le_refl _)]
              simp
            have hdollar2 : (pre' ++ '$' :: (X ++ post)).get? pre'.length =
                (takeLettersUpTo 6 (pre' ++ '$' :: (X ++ post))).get? pre'.length := by
              conv in (pre' ++ '$' :: (X ++ post)).get? _ => rw [hr]
              rw [List.get?_eq_getElem?, List.get?_eq_getElem?, List.getElem?_append]
              rw [if_pos hgt]
            have hmem : '$' ∈ takeLettersUpTo 6 (pre' ++ '$' :: (X ++ post)) :=
              List.get?_mem (hdollar2 ▸ hdollar1)
            have := List.all_eq_true.mp hall '$' hmem
            simp at this
          have hdrop : (pre' ++ '$' :: (X ++ post)).drop
              (takeLettersUpTo 6 (pre' ++ '$' :: (X ++ post))).length =
              pre'.drop (takeLettersUpTo 6 (pre' ++ '$' :: (X ++ post))).length ++
                '$' :: (X ++ post) :=
            List.drop_append_of_le_length hrl
          refine List.mem_cons_of_mem _ ?_
          rw [hdrop]
          refine ih _ X post ?_ halpha h1 h6 hpost
          have hd : (pre'.drop (takeLettersUpTo 6 (pre' ++ '$' :: (X ++ post))).length).length ≤
              pre'.length := by
            rw [List.length_drop]
            omega
          simp only [List.length_append, List.length_cons] at hlen' ⊢
          omega
      · simp only [List.cons_append, cashtagGo, hc, Bool.false_eq_true, if_false,
          List.append_eq]
        exact ih pre' X post hlen' halpha h1 h6 hpost

/-- C4: for every lookup table whose keys are canonical (uppercase, per the
spec's data model) and every text containing an explicit cashtag `$X` —
a maximal run of one to six letters after a dollar sign — where `X` is a
key of the lookup, `detect_tickers_in_text` detects `X`. -/
theorem cashtag_key_detected (lookup : Lookup) (text : String) (pre X post : List Char)
    (htext : text.data = pre ++ '$' :: (X ++ post))
    (halpha : X.all Char.isAlpha = true)
    (hlen1 : 1 ≤ X.length) (hlen6 : X.length ≤ 6)
    (hpost : headNonAlpha post = true)
    (hupper : pyUpper (String.mk X) = String.mk X)
    (e : TickerEntry) (hkey : (String.mk X, e) ∈ lookup) :
    String.mk X ∈ detect_tickers_in_text text lookup := by
  have hm : X ∈ cashtagMatches text.data := by
    rw [cashtagMatches, htext]
    exact mem_cashtagGo _ pre X post (le_refl _) halpha hlen1 hlen6 hpost
  have hany : lookup.any (fun p => p.1 == pyUpper (String.mk X)) = true := by
    rw [hupper]
    exact List.any_eq_true.mpr ⟨(String.mk X, e), hkey, by simp⟩
  have h1 : pyUpper (String.mk X) ∈ layer1 text.data lookup [] :=
    mem_layer1_of text.data lookup X hm hany []
  rw [hupper] at h1
  have h123 : String.mk X ∈ layers123 text lookup :=
    layer3_mono _ _ _ _ (layer2_mono _ _ _ _ h1)
  have hne : layers123 text lookup ≠ [] := List.ne_nil_of_mem h123
  rw [detect_eq_finalize_of_ne_nil _ _ hne]
  refine (mem_pyFinalize _ _).mpr ⟨h123, ?_⟩
  intro hc
  have hX : X = [] := by simpa using congrArg String.data hc
  rw [hX] at hlen1
  simp at hlen1

/-- C4 witness: the cashtag `$AAPL` inside a sentence is detected for a
lookup holding the key `AAPL`. -/
theorem cashtag_key_detected_witness :
    "AAPL" ∈ detect_tickers_in_text "Buy $AAPL now"
      [("AAPL", TickerEntry.mk "AAPL" Option.none ["aapl"])] := by
  have h := cashtag_key_detected
    [("AAPL", TickerEntry.mk "AAPL" Option.none ["aapl"])]
    "Buy $AAPL now" ['B', 'u', 'y', ' '] ['A', 'A', 'P', 'L'] [' ', 'n', 'o', 'w']
    (by decide) (by decide) (by decide) (by decide) (by decide) (by decide)
    (TickerEntry.mk "AAPL" Option.none ["aapl"]) (by decide)
  exact h

/-! Claim C5 — detection of a bare symbol as the whole text. The claim as
stated fails for keys whose edge characters are not word characters (no
layer matches then); it holds whenever the symbol's first and last
characters are word characters, via the exact-token layer. -/

/-- C5 counterexample: the key `-` of a lookup is not detected when the
text is exactly `-`: the word-boundary pattern `\b\-\b` cannot match, no
alias or name is present, and the fuzzy layer finds no token of length 3.
So `detect_tickers_in_text` on the bare ticker does not contain it. -/
theorem bare_symbol_counterexample :
    (("-", TickerEntry.mk "-" Option.none []) ∈
        [("-", TickerEntry.mk "-" Option.none [])]) ∧
    "-" ∉ detect_tickers_in_text "-" [("-", TickerEntry.mk "-" Option.none [])] := by
  constructor
  · decide
  · decide

theorem wbs_self (l : List Char) (hne : l ≠ []) (hw0 : wordAt l 0 = true)
    (hwl : wordAt l (l.length - 1) = true) : wordBoundarySearch l l = true := by
  apply List.any_eq_true.mpr
  refine ⟨0, List.mem_range.mpr (by omega), ?_⟩
  have hm : matchesAt l l 0 = true := by
    simp [matchesAt]
  have hb0 : boundaryAt l 0 = true := by
    simp [boundaryAt, hw0]
  have hbl : boundaryAt l (0 + l.length) = true := by
    have hlen : ¬l.length = 0 := fun h => hne (List.length_eq_zero.mp h)
    have hword : wordAt l l.length = false := by
      simp only [wordAt, List.get?_eq_getElem?, List.getElem?_eq_none (le_refl _)]
    have hz : (l.length == 0) = false := by
      simpa using hlen
    simp only [Nat.zero_add, boundaryAt, hz, Bool.false_eq_true, if_false, hword, hwl]
    rfl
  rw [hm, hb0, hbl]
  rfl

/-- C5 as amended: for every lookup and every key `S` of it whose first and
last characters are word characters (alphanumeric or underscore; case
mapping preserves this, so the condition is stated for the lowered
characters), `detect_tickers_in_text(S, lookup)` contains `S`, found by the
word-boundary exact-token layer. -/
theorem bare_symbol_detected (lookup : Lookup) (S : String) (e : TickerEntry)
    (hmem : (S, e) ∈ lookup)
    (hfirst : (S.data.head?.map fun c => isWordChar (Char.toLower c)) = some true)
    (hlast : (S.data.getLast?.map fun c => isWordChar (Char.toLower c)) = some true) :
    S ∈ detect_tickers_in_text S lookup := by
  cases hSd : S.data with
  | nil =>
    rw [hSd] at hfirst
    cases hfirst
  | cons c rest =>
    have hld : (pyLower S).data = Char.toLower c :: rest.map Char.toLower := by
      simp [pyLower, hSd]
    have hw0 : wordAt (pyLower S).data 0 = true := by
      rw [hld]
      rw [hSd] at hfirst
      simpa [wordAt] using hfirst
    have hwl : wordAt (pyLower S).data ((pyLower S).data.length - 1) = true := by
      obtain ⟨d, hd, hdw⟩ := Option.map_eq_some'.mp hlast
      have hlast' : (pyLower S).data.getLast? = some (Char.toLower d) := by
        have : (pyLower S).data = S.data.map Char.toLower := rfl
        rw [this, List.getLast?_map, hd]
        rfl
      rw [wordAt, List.get?_eq_getElem?, ← List.getLast?_eq_getElem?, hlast']
      exact hdw
    have hne : (pyLower S).data ≠ [] := by
      rw [hld]
      exact List.cons_ne_nil _ _
    have hsearch := wbs_self (pyLower S).data hne hw0 hwl
    have h2 : S ∈ layer2 (pyLower S).data lookup (layer1 S.data lookup []) :=
      mem_layer2_of (pyLower S).data lookup S e hmem hsearch _
    have h123 : S ∈ layers123 S lookup := layer3_mono _ _ _ _ h2
    have hne123 : layers123 S lookup ≠ [] := List.ne_nil_of_mem h123
    rw [detect_eq_finalize_of_ne_nil _ _ hne123]
    refine (mem_pyFinalize _ _).mpr ⟨h123, ?_⟩
    intro hc
    rw [hc] at hSd
    cases hSd

/-- C5 witness: the bare text `MSFT` is detected for the key `MSFT`. -/
theorem bare_symbol_detected_witness :
    "MSFT" ∈ detect_tickers_in_text "MSFT"
      [("MSFT", TickerEntry.mk "MSFT" Option.none ["msft"])] :=
  bare_symbol_detected [("MSFT", TickerEntry.mk "MSFT" Option.none ["msft"])] "MSFT"
    (TickerEntry.mk "MSFT" Option.none ["msft"]) (by decide) (by decide) (by decide)

/-! Claim C8 — shape of the detection result. The sorted/de-duplicated/
never-null parts hold for all inputs; the `detect(" ", L) = []` part fails
for lookups with a single-space alias and holds for space-free ones. -/

/-- C8 counterexample: a lookup whose entry carries the alias `" "` makes
`detect_tickers_in_text " "` return a non-empty list (the alias substring
layer matches the single-space text), refuting the claim's
`detect(" ", L) = []` for arbitrary non-empty `L`. -/
theorem detect_output_shape_counterexample :
    detect_tickers_in_text " " [("A", TickerEntry.mk "A" Option.none [" "])] = ["A"] ∧
    (["A"] : List String) ≠ [] ∧
    [("A", TickerEntry.mk "A" Option.none [" "])] ≠ ([] : Lookup) := by
  refine ⟨by decide, by decide, by decide⟩

theorem wbs_space (pat : List Char) : wordBoundarySearch [' '] pat = false := by
  have hb0 : boundaryAt [' '] 0 = false := by decide
  have hb1 : boundaryAt [' '] 1 = false := by decide
  simp only [wordBoundarySearch]
  rw [show List.range ([' '].length + 1) = [0, 1] from rfl]
  simp [hb0, hb1]

theorem substr_space : ∀ (p : List Char), isSubstr p [' '] = true → p = [] ∨ p = [' ']
  | [], _ => Or.inl rfl
  | [c], h => by
    right
    simp only [isSubstr, matchesAt] at h
    rw [show List.range ([' '].length + 1) = [0, 1] from rfl] at h
    simp at h
    rw [h]
  | c :: d :: t, h => by
    exfalso
    simp only [isSubstr, matchesAt] at h
    rw [show List.range ([' '].length + 1) = [0, 1] from rfl] at h
    simp at h

theorem layers123_space (lookup : Lookup) (hsf : spaceFreeEntries lookup = true) :
    layers123 " " lookup = [] := by
  simp only [layers123]
  rw [show (pyLower " ").data = [' '] from rfl]
  have h1 : layer1 (" " : String).data lookup [] = [] := by
    refine foldl_id_of_step_id _ _ _ ?_
    intro a m hm
    rw [show cashtagMatches (" " : String).data = [] from rfl] at hm
    cases hm
  rw [h1]
  have h2 : layer2 [' '] lookup [] = [] := by
    refine foldl_id_of_step_id _ _ _ ?_
    intro a p _
    dsimp only
    rw [wbs_space, if_neg (by simp)]
  rw [h2]
  refine foldl_id_of_step_id _ _ _ ?_
  intro a p hp
  dsimp only
  have hpa := List.all_eq_true.mp hsf p hp
  rw [Bool.and_eq_true] at hpa
  have hA : (p.2.aliases.any fun al => !(al == "") && isSubstr al.data [' ']) = false := by
    rw [List.any_eq_false]
    intro al hal
    simp only [Bool.and_eq_true, Bool.not_eq_true', beq_eq_false_iff_ne, ne_eq]
    rintro ⟨h0, hsub⟩
    rcases substr_space al.data hsub with h | h
    · exact h0 ((string_data_eq_nil al).mp h)
    · have hsp : al = " " := by
        cases al
        simpa [String.ext_iff] using h
      have hcontains : p.2.aliases.contains " " = true :=
        List.elem_eq_true_of_mem (hsp ▸ hal)
      rw [hcontains] at hpa
      simp at hpa
  rw [hA]
  simp only [Bool.false_eq_true, if_false]
  split
  · rfl
  · split
    · rename_i n hn
      rw [if_neg ?_]
      simp only [Bool.and_eq_true, Bool.not_eq_true', beq_eq_false_iff_ne, ne_eq]
      rintro ⟨h0, hsub⟩
      rcases substr_space (pyLower n).data hsub with h | h
      · have hlen : n.data.length = 0 := by
          simpa [pyLower] using congrArg List.length h
        exact h0 ((string_data_eq_nil n).mp (List.length_eq_zero.mp hlen))
      · have hsp : pyLower n = " " := by
          cases hql : pyLower n
          rw [hql] at h
          simpa [String.ext_iff] using h
        have hthis := hpa.2
        rw [hn] at hthis
        have hred : (!(pyLower n == " ")) = true := hthis
        rw [hsp] at hred
        simp at hred
    · rfl

/-- C8 as amended: `detect_tickers_in_text` always returns an
alphabetically sorted (code-point order), de-duplicated list; it returns
`[]` on falsy (empty) text; it returns `[]` on the single-space text for
every lookup with no single-space alias or display name (the unrestricted
claim fails on such aliases); and it returns `[]` for the empty lookup. -/
theorem detect_output_shape (text : String) (lookup : Lookup) :
    ((detect_tickers_in_text text lookup).Pairwise (fun a b => strLeB a b = true) ∧
      (detect_tickers_in_text text lookup).Nodup) ∧
    (text = "" → detect_tickers_in_text text lookup = []) ∧
    (text = " " → spaceFreeEntries lookup = true →
      detect_tickers_in_text text lookup = []) ∧
    (lookup = [] → detect_tickers_in_text text lookup = []) := by
  have hfin : ∀ m : List String,
      (pyFinalize m).Pairwise (fun a b => strLeB a b = true) ∧ (pyFinalize m).Nodup := by
    intro m
    constructor
    · exact sortBy_sorted strLeB strLeB_trans strLeB_total _
    · exact ((List.perm_insertionSort _ _).symm).nodup (List.nodup_dedup _)
  refine ⟨?_, ?_, ?_, ?_⟩
  · by_cases h0 : (text == "" || lookup.isEmpty) = true
    · rw [detect_tickers_in_text, if_pos h0]
      exact ⟨List.Pairwise.nil, List.nodup_nil⟩
    · rw [detect_tickers_in_text, if_neg h0]
      exact hfin _
  · intro ht
    subst ht
    rw [detect_tickers_in_text, if_pos (by simp)]
  · intro ht hsf
    subst ht
    cases lookup with
    | nil => rfl
    | cons p ps =>
      have h123 := layers123_space (p :: ps) hsf
      rw [detect_tickers_in_text, if_neg (by simp), h123]
      rfl
  · intro hl
    subst hl
    simp [detect_tickers_in_text]

/-- C8 witness: the shape theorem evaluated at the single-space text with a
space-free lookup, at the empty text, and at the empty lookup. -/
theorem detect_output_shape_witness :
    (detect_tickers_in_text " "
        [("MSFT", TickerEntry.mk "MSFT" Option.none ["msft"])]).Pairwise
      (fun a b => strLeB a b = true) ∧
    detect_tickers_in_text "" [("MSFT", TickerEntry.mk "MSFT" Option.none ["msft"])] = [] ∧
    detect_tickers_in_text " " [("MSFT", TickerEntry.mk "MSFT" Option.none ["msft"])] = [] ∧
    detect_tickers_in_text "abc" [] = [] := by
  refine ⟨(detect_output_shape " " _).1.1,
    (detect_output_shape "" _).2.1 rfl,
    (detect_output_shape " " _).2.2.1 rfl (by decide),
    (detect_output_shape "abc" []).2.2.2 rfl⟩

/-! Claim C10 — `compute_event_windows` leaves its two argument dataframes
unchanged: every mutation targets objects freshly allocated inside the
call (`.copy()` results and the `sort_values` result), never the argument
objects. -/

theorem set_append_length {α : Type} (l : List α) (a b : α) :
    (l ++ [a]).set l.length b = l ++ [b] := by
  induction l with
  | nil => rfl
  | cons x xs ih => exact congrArg (x :: ·) ih

theorem get?_append_lt {α : Type} (l : List α) (x : α) (j : Nat) (hj : j < l.length) :
    (l ++ [x]).get? j = l.get? j := by
  rw [List.get?_eq_getElem?, List.get?_eq_getElem?, List.getElem?_append, if_pos hj]

theorem eventLoop_preserve (erows : List EventRow) (pr : List PriceRowR) (fd outId : Nat)
    (idxs : List Nat) (h : List DFObj) (j : Nat) (hj : j ≠ outId) :
    (idxs.foldl (eventLoopStep erows pr fd outId) h).get? j = h.get? j := by
  induction idxs generalizing h with
  | nil => rfl
  | cons i is ih =>
    rw [List.foldl_cons, ih]
    unfold eventLoopStep
    split
    · split
      · rw [heapWrite, List.get?_eq_getElem?, List.getElem?_set_ne (Ne.symm hj),
          ← List.get?_eq_getElem?]
      · rfl
    · rfl

/-- C10: running the heap-passing form of `compute_event_windows` on a heap
holding the events dataframe and the prices dataframe leaves both argument
objects exactly as they were: the function operates on copies, and the
`ar_d`/`car_1_3` cells are written only into the fresh output object. -/
theorem compute_event_windows_prog_frame (h : List DFObj) (eventsId pricesId fd : Nat)
    (he : eventsId < h.length) (hp : pricesId < h.length) :
    (compute_event_windows_prog h eventsId pricesId fd).1.get? eventsId = h.get? eventsId ∧
    (compute_event_windows_prog h eventsId pricesId fd).1.get? pricesId = h.get? pricesId := by
  have main : ∀ j, j < h.length →
      (compute_event_windows_prog h eventsId pricesId fd).1.get? j = h.get? j := by
    intro j hj
    unfold compute_event_windows_prog
    cases hpr : h.get? pricesId with
    | none => rfl
    | some op =>
      cases op with
      | prices prows =>
        cases hev : h.get? eventsId with
        | none => rfl
        | some oe =>
          cases oe with
          | events erows =>
            simp only [heapAlloc, heapWrite]
            rw [set_append_length, set_append_length]
            rw [eventLoop_preserve _ _ _ _ _ _ j (by
              simp only [List.length_append, List.length_singleton]
              omega)]
            rw [get?_append_lt _ _ j (by
                simp only [List.length_append, List.length_singleton]
                omega),
              get?_append_lt _ _ j (by
                simp only [List.length_append, List.length_singleton]
                omega),
              get?_append_lt _ _ j hj]
          | prices r => rfl
          | pricesR r => rfl
          | outDF r => rfl
      | pricesR r => rfl
      | events r => rfl
      | outDF r => rfl
  exact ⟨main eventsId he, main pricesId hp⟩

/-- C10 witness: the frame property evaluated on a concrete two-object
heap; both input objects read back unchanged after the call. -/
theorem compute_event_windows_prog_frame_witness :
    (compute_event_windows_prog
        [DFObj.events [EventRow.mk (TickerCell.strC "A") TickerCell.noneC 0],
         DFObj.prices [PriceRow.mk "A" 1 (PyFloat.mk 10 1)]] 0 1 1).1.get? 0 =
      some (DFObj.events [EventRow.mk (TickerCell.strC "A") TickerCell.noneC 0]) ∧
    (compute_event_windows_prog
        [DFObj.events [EventRow.mk (TickerCell.strC "A") TickerCell.noneC 0],
         DFObj.prices [PriceRow.mk "A" 1 (PyFloat.mk 10 1)]] 0 1 1).1.get? 1 =
      some (DFObj.prices [PriceRow.mk "A" 1 (PyFloat.mk 10 1)]) := by
  have h := compute_event_windows_prog_frame
    [DFObj.events [EventRow.mk (TickerCell.strC "A") TickerCell.noneC 0],
     DFObj.prices [PriceRow.mk "A" 1 (PyFloat.mk 10 1)]] 0 1 1 (by decide) (by decide)
  exact ⟨h.1.trans (by decide), h.2.trans (by decide)⟩

/-! Claim C1 — characterization of the `ar_d` cells. Order lemmas and
small utilities first. -/

theorem lexLeChars_refl : ∀ l : List Char, lexLeChars l l = true := by
  intro l
  induction l with
  | nil => rfl
  | cons c cs ih => simp [lexLeChars, ih]

theorem lexLeChars_antisymm : ∀ a b : List Char,
    lexLeChars a b = true → lexLeChars b a = true → a = b := by
  intro a
  induction a with
  | nil =>
    intro b _ hba
    cases b with
    | nil => rfl
    | cons d ds => simp [lexLeChars] at hba
  | cons c cs ih =>
    intro b hab hba
    cases b with
    | nil => simp [lexLeChars] at hab
    | cons d ds =>
      by_cases hcd : c = d
      · subst hcd
        simp only [lexLeChars, beq_self_eq_true, if_true] at hab hba
        exact congrArg (c :: ·) (ih ds hab hba)
      · exfalso
        simp only [lexLeChars] at hab hba
        rw [if_neg (by simpa using hcd)] at hab
        rw [if_neg (by simpa using fun hh => hcd hh.symm)] at hba
        exact absurd (of_decide_eq_true hba) (lt_asymm (of_decide_eq_true hab))

theorem strLeB_refl (a : String) : strLeB a a = true := lexLeChars_refl a.data

theorem strLeB_antisymm (a b : String) (hab : strLeB a b = true)
    (hba : strLeB b a = true) : a = b := by
  cases a
  cases b
  exact congrArg String.mk (lexLeChars_antisymm _ _ hab hba)

theorem priceLe_refl (a : PriceRow) : priceLe a a = true := by
  simp [priceLe]

theorem priceLe_trans (a b c : PriceRow) (hab : priceLe a b = true)
    (hbc : priceLe b c = true) : priceLe a c = true := by
  unfold priceLe at hab hbc ⊢
  by_cases h1 : a.ticker = b.ticker <;> by_cases h2 : b.ticker = c.ticker
  · rw [if_pos (by simpa using h1)] at hab
    rw [if_pos (by simpa using h2)] at hbc
    rw [if_pos (by simpa using h1.trans h2)]
    have := of_decide_eq_true hab
    have := of_decide_eq_true hbc
    exact decide_eq_true (by omega)
  · rw [if_neg (by simpa using h2)] at hbc
    have hac : ¬a.ticker = c.ticker := fun hh => h2 (h1 ▸ hh)
    rw [if_neg (by simpa using hac), h1]
    exact hbc
  · rw [if_neg (by simpa using h1)] at hab
    have hac : ¬a.ticker = c.ticker := fun hh => h1 (hh.trans h2.symm)
    rw [if_neg (by simpa using hac), ← h2]
    exact hab
  · rw [if_neg (by simpa using h1)] at hab
    rw [if_neg (by simpa using h2)] at hbc
    by_cases hac : a.ticker = c.ticker
    · exfalso
      rw [hac] at hab
      exact h2 (strLeB_antisymm _ _ hbc hab)
    · rw [if_neg (by simpa using hac)]
      exact strLeB_trans _ _ _ hab hbc

theorem priceLe_total (a b : PriceRow) : priceLe a b = true ∨ priceLe b a = true := by
  unfold priceLe
  by_cases h : a.ticker = b.ticker
  · rw [if_pos (by simpa using h), if_pos (by simpa using h.symm)]
    rcases Int.le_total a.date b.date with hle | hle
    · exact Or.inl (decide_eq_true hle)
    · exact Or.inr (decide_eq_true hle)
  · rw [if_neg (by simpa using h), if_neg (by simpa using fun hh => h hh.symm)]
    exact strLeB_total a.ticker b.ticker

theorem mem_of_getLast? {α : Type} (l : List α) (p : α) (h : l.getLast? = some p) :
    p ∈ l := by
  apply List.get?_mem
  rw [List.get?_eq_getElem?, ← List.getLast?_eq_getElem?]
  exact h

theorem addReturns_map_strip : ∀ (prev : Option PriceRow) (l : List PriceRow),
    (addReturns prev l).map stripAnn = l := by
  intro prev l
  induction l generalizing prev with
  | nil => rfl
  | cons r rest ih => simp [addReturns, stripAnn, ih]

theorem eq_of_mem_unique_key {α κ : Type} (key : α → κ) (l : List α)
    (hU : l.Pairwise fun a b => key a ≠ key b) (a b : α) (ha : a ∈ l) (hb : b ∈ l)
    (hk : key a = key b) : a = b := by
  induction l with
  | nil => cases ha
  | cons x xs ih =>
    rw [List.pairwise_cons] at hU
    rcases List.mem_cons.mp ha with rfl | ha' <;> rcases List.mem_cons.mp hb with rfl | hb'
    · rfl
    · exact absurd hk (hU.1 b hb')
    · exact absurd hk.symm (hU.1 a ha')
    · exact ih hU.2 ha' hb'

theorem find?_eq_some_of_unique {α : Type} (p : α → Bool) (l : List α) (x : α)
    (hx : x ∈ l) (hpx : p x = true)
    (huniq : ∀ a ∈ l, ∀ b ∈ l, p a = true → p b = true → a = b) :
    l.find? p = some x := by
  induction l with
  | nil => cases hx
  | cons y ys ih =>
    by_cases hy : p y = true
    · rw [List.find?_cons_of_pos _ hy]
      rcases List.mem_cons.mp hx with rfl | hx'
      · rfl
      · exact congrArg some (huniq y (List.mem_cons_self y ys) x
          (List.mem_cons_of_mem _ hx') hy hpx)
    · rw [List.find?_cons_of_neg _ hy]
      rcases List.mem_cons.mp hx with rfl | hx'
      · exact absurd hpx hy
      · exact ih hx' fun a ha b hb hpa hpb =>
          huniq a (List.mem_cons_of_mem _ ha) b (List.mem_cons_of_mem _ hb) hpa hpb

theorem maxStep_ne_none (acc : Option PriceRow) (r : PriceRow) :
    maxStep acc r ≠ Option.none := by
  cases acc with
  | none => exact fun h => Option.noConfusion h
  | some p =>
    show (if p.date < r.date then some r else some p) ≠ Option.none
    by_cases hlt : p.date < r.date
    · rw [if_pos hlt]
      exact fun h => Option.noConfusion h
    · rw [if_neg hlt]
      exact fun h => Option.noConfusion h

theorem maxFold_spec : ∀ (l : List PriceRow) (acc : Option PriceRow),
    (l.foldl maxStep acc = Option.none → l = [] ∧ acc = Option.none) ∧
    (∀ p, l.foldl maxStep acc = some p →
      (p ∈ l ∨ acc = some p) ∧ (∀ q ∈ l, q.date ≤ p.date) ∧
        (∀ a, acc = some a → a.date ≤ p.date)) := by
  intro l
  induction l with
  | nil =>
    intro acc
    constructor
    · intro h
      exact ⟨rfl, h⟩
    · intro p hp
      refine ⟨Or.inr hp, by simp, ?_⟩
      intro a ha
      rw [ha] at hp
      cases hp
      exact le_refl _
  | cons r rest ih =>
    intro acc
    rw [List.foldl_cons]
    constructor
    · intro h
      exact absurd ((ih (maxStep acc r)).1 h).2 (maxStep_ne_none acc r)
    · intro p hp
      obtain ⟨hmem, hmax, haccle⟩ := (ih (maxStep acc r)).2 p hp
      cases hacc : acc with
      | none =>
        have haccstep : maxStep acc r = some r := by rw [hacc]; rfl
        refine ⟨?_, ?_, ?_⟩
        · rcases hmem with hm | hm
          · exact Or.inl (List.mem_cons_of_mem _ hm)
          · rw [haccstep] at hm
            injection hm with hm
            exact Or.inl (hm ▸ List.mem_cons_self _ _)
        · intro q hq
          rcases List.mem_cons.mp hq with rfl | hq'
          · exact haccle q haccstep
          · exact hmax q hq'
        · intro a ha
          cases ha
      | some a0 =>
        by_cases hlt : a0.date < r.date
        · have haccstep : maxStep acc r = some r := by rw [hacc]; simp [maxStep, hlt]
          refine ⟨?_, ?_, ?_⟩
          · rcases hmem with hm | hm
            · exact Or.inl (List.mem_cons_of_mem _ hm)
            · rw [haccstep] at hm
              injection hm with hm
              exact Or.inl (hm ▸ List.mem_cons_self _ _)
          · intro q hq
            rcases List.mem_cons.mp hq with rfl | hq'
            · exact haccle q haccstep
            · exact hmax q hq'
          · intro a ha
            injection ha with ha
            have hr := haccle r haccstep
            have hlt' := hlt
            rw [ha] at hlt'
            exact le_trans (le_of_lt hlt') hr
        · have haccstep : maxStep acc r = some a0 := by rw [hacc]; simp [maxStep, hlt]
          refine ⟨?_, ?_, ?_⟩
          · rcases hmem with hm | hm
            · exact Or.inl (List.mem_cons_of_mem _ hm)
            · exact Or.inr (haccstep.symm.trans hm)
          · intro q hq
            rcases List.mem_cons.mp hq with rfl | hq'
            · have h1 := not_lt.mp hlt
              have h2 := haccle a0 haccstep
              omega
            · exact hmax q hq'
          · intro a ha
            injection ha with ha
            exact ha ▸ haccle a0 haccstep

theorem priorRecord_none_iff (P : List PriceRow) (T : String) (D : ℤ) :
    priorRecord P T D = Option.none ↔ ∀ r ∈ P, ¬(r.ticker = T ∧ r.date < D) := by
  unfold priorRecord maxByDate
  constructor
  · intro h r hr hcond
    have hnil := ((maxFold_spec _ Option.none).1 h).1
    have hmem : r ∈ P.filter (fun q => q.ticker == T && decide (q.date < D)) :=
      List.mem_filter.mpr ⟨hr, by simp [hcond.1, hcond.2]⟩
    rw [hnil] at hmem
    cases hmem
  · intro hall
    cases hres : (P.filter (fun q => q.ticker == T && decide (q.date < D))).foldl
        maxStep Option.none with
    | none => rfl
    | some p =>
      exfalso
      rcases ((maxFold_spec _ Option.none).2 p hres).1 with hm | hm
      · obtain ⟨hP, hpred⟩ := List.mem_filter.mp hm
        simp only [Bool.and_eq_true, beq_iff_eq, decide_eq_true_eq] at hpred
        exact hall p hP hpred
      · cases hm

theorem priorRecord_some_spec (P : List PriceRow) (T : String) (D : ℤ) (p : PriceRow)
    (h : priorRecord P T D = some p) :
    p ∈ P ∧ p.ticker = T ∧ p.date < D ∧
      ∀ q ∈ P, q.ticker = T → q.date < D → q.date ≤ p.date := by
  unfold priorRecord maxByDate at h
  obtain ⟨hmem, hmax, -⟩ := (maxFold_spec _ Option.none).2 p h
  rcases hmem with hm | hm
  · obtain ⟨hP, hpred⟩ := List.mem_filter.mp hm
    simp only [Bool.and_eq_true, beq_iff_eq, decide_eq_true_eq] at hpred
    refine ⟨hP, hpred.1, hpred.2, ?_⟩
    intro q hq hqt hqd
    exact hmax q (List.mem_filter.mpr ⟨hq, by simp [hqt, hqd]⟩)
  · cases hm

theorem priorRecord_eq_some (P : List PriceRow) (T : String) (D : ℤ) (p : PriceRow)
    (hU : uniqueKeys P) (hp : p ∈ P) (hpt : p.ticker = T) (hpd : p.date < D)
    (hmax : ∀ q ∈ P, q.ticker = T → q.date < D → q.date ≤ p.date) :
    priorRecord P T D = some p := by
  cases hres : priorRecord P T D with
  | none => exact absurd ⟨hpt, hpd⟩ ((priorRecord_none_iff P T D).mp hres p hp)
  | some q =>
    obtain ⟨hqP, hqt, hqd, hqmax⟩ := priorRecord_some_spec P T D q hres
    have h1 : p.date ≤ q.date := hqmax p hp hpt hpd
    have h2 : q.date ≤ p.date := hmax q hqP hqt hqd
    have hqp : q = p := eq_of_mem_unique_key keyOf P hU q p hqP hp
      (by simp [keyOf, hqt, hpt]; omega)
    rw [hqp]

theorem priorRecord_perm (P Q : List PriceRow) (hperm : P.Perm Q) (hU : uniqueKeys P)
    (T : String) (D : ℤ) : priorRecord P T D = priorRecord Q T D := by
  cases hq : priorRecord Q T D with
  | none =>
    rw [priorRecord_none_iff]
    intro r hr
    exact (priorRecord_none_iff Q T D).mp hq r (hperm.mem_iff.mp hr)
  | some p =>
    obtain ⟨hpQ, hpt, hpd, hmax⟩ := priorRecord_some_spec Q T D p hq
    exact priorRecord_eq_some P T D p hU (hperm.mem_iff.mpr hpQ) hpt hpd
      fun q hqp hqt hqd => hmax q (hperm.mem_iff.mp hqp) hqt hqd

theorem sorted_last_le (l : List PriceRow) (hs : l.Pairwise fun a b => priceLe a b = true)
    (x : PriceRow) (hx : x ∈ l) (p : PriceRow) (hl : l.getLast? = some p) :
    priceLe x p = true := by
  induction l with
  | nil => cases hx
  | cons y ys ih =>
    rw [List.pairwise_cons] at hs
    cases ys with
    | nil =>
      have hp : y = p := by simpa using hl
      obtain rfl := List.mem_singleton.mp hx
      rw [← hp]
      exact priceLe_refl x
    | cons z zs =>
      have hl' : (z :: zs).getLast? = some p := by
        rw [← hl]
        exact (List.getLast?_cons_cons ..).symm
      rcases List.mem_cons.mp hx with rfl | hx'
      · exact hs.1 p (mem_of_getLast? _ p hl')
      · exact ih hs.2 hx' hl'

theorem le_date_of_sorted_head (x q : PriceRow) (rest' : List PriceRow)
    (hpw : (x :: rest').Pairwise fun a b => priceLe a b = true)
    (hq : q ∈ rest') (ht : q.ticker = x.ticker) : x.date ≤ q.date := by
  rw [List.pairwise_cons] at hpw
  have hle := hpw.1 q hq
  unfold priceLe at hle
  rw [if_pos (by simpa using ht.symm)] at hle
  exact of_decide_eq_true hle

theorem addReturns_daily_return :
    ∀ (rest ctx : List PriceRow),
      ((ctx ++ rest).Pairwise fun a b => priceLe a b = true) →
      ((ctx ++ rest).Pairwise fun a b => keyOf a ≠ keyOf b) →
      ∀ r' ∈ addReturns ctx.getLast? rest,
        r'.daily_return =
          match priorRecord (ctx ++ rest) r'.ticker r'.date with
          | Option.none => PyVal.nan
          | some p => PyVal.num ((r'.close.div p.close).sub PyFloat.one) := by
  intro rest
  induction rest with
  | nil =>
    intro ctx _ _ r' hr'
    cases hr'
  | cons x rest' ih =>
    intro ctx hs hU r' hr'
    rcases List.mem_cons.mp hr' with rfl | hr''
    · -- the head row, annotated from the previous row `ctx.getLast?`
      dsimp only
      cases hc : ctx.getLast? with
      | none =>
        have hctx : ctx = [] := List.getLast?_eq_none_iff.mp hc
        subst hctx
        rw [List.nil_append] at hs hU ⊢
        have hnone : priorRecord (x :: rest') x.ticker x.date = Option.none := by
          rw [priorRecord_none_iff]
          intro r hr hcond
          rcases List.mem_cons.mp hr with rfl | hr2
          · exact absurd hcond.2 (lt_irrefl _)
          · have := le_date_of_sorted_head x r rest' hs hr2 hcond.1
            omega
        rw [hnone]
      | some p =>
        have hpmem : p ∈ ctx := mem_of_getLast? ctx p hc
        have hpx : priceLe p x = true := by
          rw [List.pairwise_append] at hs
          exact hs.2.2 p hpmem x (List.mem_cons_self _ _)
        have hsrest : (x :: rest').Pairwise fun a b => priceLe a b = true := by
          rw [List.pairwise_append] at hs
          exact hs.2.1
        have hsctx : ctx.Pairwise fun a b => priceLe a b = true := by
          rw [List.pairwise_append] at hs
          exact hs.1
        by_cases hpt : (p.ticker == x.ticker) = true
        · show (if (p.ticker == x.ticker) = true
              then PyVal.num ((x.close.div p.close).sub PyFloat.one) else PyVal.nan) =
            match priorRecord (ctx ++ x :: rest') x.ticker x.date with
            | Option.none => PyVal.nan
            | some q => PyVal.num ((x.close.div q.close).sub PyFloat.one)
          rw [if_pos hpt]
          have hptEq : p.ticker = x.ticker := eq_of_beq hpt
          have hpd : p.date < x.date := by
            unfold priceLe at hpx
            rw [if_pos (by simpa using hptEq)] at hpx
            have hle := of_decide_eq_true hpx
            have hne : keyOf p ≠ keyOf x := by
              rw [List.pairwise_append] at hU
              exact hU.2.2 p hpmem x (List.mem_cons_self _ _)
            have hdd : ¬p.date = x.date := fun hdd => hne (by simp [keyOf, hptEq, hdd])
            omega
          have hsome : priorRecord (ctx ++ x :: rest') x.ticker x.date = some p := by
            refine priorRecord_eq_some _ _ _ _ hU (List.mem_append_left _ hpmem) hptEq hpd ?_
            intro q hq hqt hqd
            rcases List.mem_append.mp hq with hqc | hqx
            · have hlast := sorted_last_le ctx hsctx q hqc p hc
              unfold priceLe at hlast
              by_cases hqp : q.ticker = p.ticker
              · rw [if_pos (by simpa using hqp)] at hlast
                exact of_decide_eq_true hlast
              · exact absurd (hqt.trans hptEq.symm) hqp
            · rcases List.mem_cons.mp hqx with rfl | hqr
              · exact absurd hqd (lt_irrefl _)
              · have := le_date_of_sorted_head x q rest' hsrest hqr hqt
                omega
          rw [hsome]
        · show (if (p.ticker == x.ticker) = true
              then PyVal.num ((x.close.div p.close).sub PyFloat.one) else PyVal.nan) =
            match priorRecord (ctx ++ x :: rest') x.ticker x.date with
            | Option.none => PyVal.nan
            | some q => PyVal.num ((x.close.div q.close).sub PyFloat.one)
          rw [if_neg hpt]
          have hptNe : ¬p.ticker = x.ticker := by simpa using hpt
          have hpxs : strLeB p.ticker x.ticker = true := by
            unfold priceLe at hpx
            rw [if_neg (by simpa using hptNe)] at hpx
            exact hpx
          have hnone : priorRecord (ctx ++ x :: rest') x.ticker x.date = Option.none := by
            rw [priorRecord_none_iff]
            intro r hr hcond
            rcases List.mem_append.mp hr with hrc | hrx
            · have hlast := sorted_last_le ctx hsctx r hrc p hc
              unfold priceLe at hlast
              by_cases hrp : r.ticker = p.ticker
              · exact hptNe (hrp.symm.trans hcond.1)
              · rw [if_neg (by simpa using hrp)] at hlast
                rw [hcond.1] at hlast
                exact hptNe (strLeB_antisymm _ _ hpxs hlast)
            · rcases List.mem_cons.mp hrx with rfl | hrr
              · exact absurd hcond.2 (lt_irrefl _)
              · have := le_date_of_sorted_head x r rest' hsrest hrr hcond.1
                omega
          rw [hnone]
    · -- a row of the tail, annotated from the previous row `x`
      have hr2 : r' ∈ addReturns (ctx ++ [x]).getLast? rest' := by
        rw [List.getLast?_concat]
        exact hr''
      have hassoc : (ctx ++ [x]) ++ rest' = ctx ++ x :: rest' := by
        rw [List.append_assoc]
        rfl
      have hmain := ih (ctx ++ [x]) (by rw [hassoc]; exact hs) (by rw [hassoc]; exact hU)
        r' hr2
      rw [hassoc] at hmain
      exact hmain

theorem ar_value_spec (P : List PriceRow) (hU : uniqueKeys P) (T : String) (D : ℤ) :
    (match lookupReturn (addReturns Option.none (sortPrices P)) T D with
     | some v => v
     | Option.none => PyVal.none) =
    (match priceRecord P T D with
     | Option.none => PyVal.none
     | some r =>
       match priorRecord P T D with
       | Option.none => PyVal.nan
       | some p => PyVal.num ((r.close.div p.close).sub PyFloat.one)) := by
  have hperm : (sortPrices P).Perm P := List.perm_insertionSort _ _
  have hsorted : (sortPrices P).Pairwise fun a b => priceLe a b = true :=
    sortBy_sorted priceLe priceLe_trans priceLe_total P
  have hUS : (sortPrices P).Pairwise fun a b => keyOf a ≠ keyOf b :=
    (List.Perm.pairwise_iff (fun h => Ne.symm h) hperm).mpr hU
  have hstrip : (addReturns Option.none (sortPrices P)).map stripAnn = sortPrices P :=
    addReturns_map_strip _ _
  cases hrec : priceRecord P T D with
  | none =>
    have hfind : (addReturns Option.none (sortPrices P)).find?
        (fun q => q.ticker == T && q.date == D) = Option.none := by
      rw [List.find?_eq_none]
      intro r' hr' hpred
      have hmemS : stripAnn r' ∈ sortPrices P := by
        rw [← hstrip]
        exact List.mem_map_of_mem _ hr'
      have hmemP : stripAnn r' ∈ P := hperm.mem_iff.mp hmemS
      exact List.find?_eq_none.mp hrec (stripAnn r') hmemP hpred
    rw [lookupReturn, hfind]
    rfl
  | some r =>
    have hrec' : P.find? (fun q => q.ticker == T && q.date == D) = some r := hrec
    have hrP : r ∈ P := List.mem_of_find?_eq_some hrec'
    have hrpred := List.find?_some hrec'
    simp only [Bool.and_eq_true, beq_iff_eq] at hrpred
    have hrS : r ∈ sortPrices P := hperm.mem_iff.mpr hrP
    have hrmap : r ∈ (addReturns Option.none (sortPrices P)).map stripAnn := by
      rw [hstrip]
      exact hrS
    obtain ⟨r', hr'A, hr'strip⟩ := List.mem_map.mp hrmap
    have hUA : (addReturns Option.none (sortPrices P)).Pairwise
        fun a b => keyOf (stripAnn a) ≠ keyOf (stripAnn b) := by
      have h := hUS
      rw [← hstrip, List.pairwise_map] at h
      exact h
    have hticker : r'.ticker = r.ticker := congrArg PriceRow.ticker hr'strip
    have hdate : r'.date = r.date := congrArg PriceRow.date hr'strip
    have hclose : r'.close = r.close := congrArg PriceRow.close hr'strip
    have hfind : (addReturns Option.none (sortPrices P)).find?
        (fun q => q.ticker == T && q.date == D) = some r' := by
      apply find?_eq_some_of_unique _ _ _ hr'A
      · simp [hticker, hdate, hrpred.1, hrpred.2]
      · intro a ha b hb hpa hpb
        apply eq_of_mem_unique_key (fun q : PriceRowR => keyOf (stripAnn q)) _ hUA a b ha hb
        rw [Bool.and_eq_true, beq_iff_eq, beq_iff_eq] at hpa hpb
        simp [keyOf, stripAnn, hpa.1, hpa.2, hpb.1, hpb.2]
    rw [lookupReturn, hfind]
    have hdr := addReturns_daily_return (sortPrices P) [] (by simpa using hsorted)
      (by simpa using hUS) r' (by simpa using hr'A)
    rw [List.nil_append] at hdr
    rw [hticker, hdate, hrpred.1, hrpred.2, hclose] at hdr
    have hprior : priorRecord (sortPrices P) T D = priorRecord P T D :=
      (priorRecord_perm P (sortPrices P) hperm.symm hU T D).symm
    rw [hprior] at hdr
    exact hdr

/-- C1 as amended: the `ar_d` cell of every output row equals the daily
return `close/prev_close - 1` of the price record at `(T, E + d)` when that
record exists and has a prior observation of the same symbol; it is the
float `NaN` (not `None`) when the record exists but is the symbol's first
observation; and it is `None` when no record exists at that calendar date,
the symbol has no price rows, or no symbol was detected. Requires the
spec's PricePoint invariant (unique `(symbol, date)` keys). -/
theorem ar_cells_characterized (P : List PriceRow) (evs : List EventRow) (fd : Nat)
    (hU : uniqueKeys P) (i d : Nat) (ev : EventRow) (row : OutRow)
    (hev : evs.get? i = some ev)
    (hrow : (compute_event_windows evs P fd).get? i = some row)
    (hd1 : 1 ≤ d) (hd2 : d ≤ fd) :
    row.ars.get? (d - 1) = some (
      match pyTickerOf ev with
      | Option.none => PyVal.none
      | some T =>
        match priceRecord P T (ev.event_date + (d : ℤ)) with
        | Option.none => PyVal.none
        | some r =>
          match priorRecord P T (ev.event_date + (d : ℤ)) with
          | Option.none => PyVal.nan
          | some p => PyVal.num ((r.close.div p.close).sub PyFloat.one)) := by
  have hperm : (sortPrices P).Perm P := List.perm_insertionSort _ _
  have hrow' : row = OutRow.mk ev
      (computeRow (addReturns Option.none (sortPrices P)) fd ev).1
      (computeRow (addReturns Option.none (sortPrices P)) fd ev).2 := by
    simp only [compute_event_windows] at hrow
    rw [List.get?_eq_getElem?, List.getElem?_map, ← List.get?_eq_getElem?, hev] at hrow
    injection hrow with hrow
    exact hrow.symm
  subst hrow'
  cases hT : pyTickerOf ev with
  | none =>
    simp only [computeRow, hT]
    rw [List.get?_eq_getElem?, List.getElem?_replicate, if_pos (by omega)]
  | some T =>
    by_cases hAny : ((addReturns Option.none (sortPrices P)).any fun q => q.ticker == T) = true
    · simp only [computeRow, hT, hAny, Bool.not_true, Bool.false_eq_true, if_false]
      rw [List.get?_eq_getElem?]
      simp only [List.getElem?_map, List.getElem?_range (show d - 1 < fd by omega),
        Option.map_some']
      have hdate : ev.event_date + (((d - 1 : ℕ) : ℤ) + 1) = ev.event_date + (d : ℤ) := by
        omega
      rw [hdate, ar_value_spec P hU T (ev.event_date + (d : ℤ))]
    · have hrec : priceRecord P T (ev.event_date + (d : ℤ)) = Option.none := by
        apply List.find?_eq_none.mpr
        intro r hr hpred
        apply hAny
        have hrS : r ∈ sortPrices P := hperm.mem_iff.mpr hr
        obtain ⟨r', hr'A, hstripr⟩ := List.mem_map.mp
          (show r ∈ (addReturns Option.none (sortPrices P)).map stripAnn by
            rw [addReturns_map_strip]
            exact hrS)
        refine List.any_eq_true.mpr ⟨r', hr'A, ?_⟩
        rw [Bool.and_eq_true, beq_iff_eq, beq_iff_eq] at hpred
        have hrt : r'.ticker = r.ticker := congrArg PriceRow.ticker hstripr
        simp [hrt, hpred.1]
      have hAnyF : ((addReturns Option.none (sortPrices P)).any fun q => q.ticker == T)
          = false := Bool.eq_false_iff.mpr hAny
      simp only [computeRow, hT, hAnyF, Bool.not_false, if_true]
      rw [hrec]
      rw [List.get?_eq_getElem?, List.getElem?_replicate, if_pos (by omega)]

/-- C1 counterexample: with prices for symbol `A` starting at date 1 and an
event at date 0, the record at `(A, 1)` exists but is the first observation
(no prior record, so no defined daily return). The claim requires
`ar_1 = None`; the code stores the float `NaN`, which is a different value
than `None`. -/
theorem ar_first_observation_counterexample :
    priceRecord [PriceRow.mk "A" 1 (PyFloat.mk 10 1), PriceRow.mk "A" 2 (PyFloat.mk 11 1)]
        "A" 1 = some (PriceRow.mk "A" 1 (PyFloat.mk 10 1)) ∧
    priorRecord [PriceRow.mk "A" 1 (PyFloat.mk 10 1), PriceRow.mk "A" 2 (PyFloat.mk 11 1)]
        "A" 1 = Option.none ∧
    (compute_event_windows [EventRow.mk (TickerCell.strC "A") TickerCell.noneC 0]
        [PriceRow.mk "A" 1 (PyFloat.mk 10 1), PriceRow.mk "A" 2 (PyFloat.mk 11 1)] 1).map
      OutRow.ars = [[PyVal.nan]] ∧
    PyVal.nan ≠ PyVal.none := by
  refine ⟨by decide, by decide, by decide, by decide⟩

/-- C1 witness: the amended characterization evaluated at a concrete event:
day 2 falls on a record with a prior observation, so `ar_2` is the daily
return `11/10 - 1 = 0.1`. -/
theorem ar_cells_characterized_witness :
    (OutRow.mk (EventRow.mk (TickerCell.strC "A") TickerCell.noneC 0)
        [PyVal.nan, PyVal.num (PyFloat.mk 1 10)] PyVal.nan).ars.get? 1 =
      some (PyVal.num (PyFloat.mk 1 10)) := by
  have h := ar_cells_characterized
    [PriceRow.mk "A" 1 (PyFloat.mk 10 1), PriceRow.mk "A" 2 (PyFloat.mk 11 1)]
    [EventRow.mk (TickerCell.strC "A") TickerCell.noneC 0] 2 (by decide) 0 2
    (EventRow.mk (TickerCell.strC "A") TickerCell.noneC 0)
    (OutRow.mk (EventRow.mk (TickerCell.strC "A") TickerCell.noneC 0)
      [PyVal.nan, PyVal.num (PyFloat.mk 1 10)] PyVal.nan)
    (by decide) (by decide) (by decide) (by decide)
  exact h.trans (by decide)

end Dashboard
